import Mathlib

/-!
# Verification of the 4NSIKdata file-organizing pipeline

This file gives a shallow embedding of the three-stage pipeline implemented in
`456FileFix.py` (organize by extension, content-hash deduplication, empty-folder
cleanup) and of its near-duplicate variant in `test_4NSIKfilefix.py`, and proves
the testable properties stated in the specification.

## The filesystem model

The only durable state of the program is the filesystem.  A directory is
modelled as an association list from entry names to nodes (`Listing`); the list
order is the enumeration order that `os.listdir` reports, with newly created
entries appended at the end and overwritten entries kept in place.  A node is
either a regular file — carrying its byte content and a readability flag (a
file with `readable = false` raises `PermissionError` when opened, as in the
spec's permission-error scenario) — or a directory with its own listing.

Fallible operations return `Except Unit`: Python exceptions that the source
does not catch are modelled as `Except.error ()`, which propagates exactly as
an uncaught exception does.

The content hash (`hashlib.sha256` in the source) is an arbitrary function
`hash : Bytes → Nat` throughout; every theorem holds for every hash function,
so hash collisions are covered rather than assumed away.
-/

abbrev Bytes := List Nat

inductive Node where
  | file (content : Bytes) (readable : Bool)
  | dir (entries : List (String × Node))
deriving Repr

abbrev Listing := List (String × Node)

/-- Directory lookup by entry name (the first binding wins; in a real directory
names are unique, which the `keysNodup` hypotheses capture). -/
def lookupEntry : Listing → String → Option Node
  | [], _ => none
  | e :: l, n => if e.1 = n then some e.2 else lookupEntry l n

/-- Deleting a directory entry (`os.remove` / `rmdir`): all bindings of that
name disappear, the other entries keep their listing order. -/
def removeEntry (l : Listing) (n : String) : Listing :=
  l.filter (fun e => e.1 ≠ n)

/-- Writing a directory entry: an existing binding is overwritten in place
(`os.rename` onto an existing name), a new one is appended at the end of the
listing (a freshly created entry is enumerated last). -/
def setEntry : Listing → String → Node → Listing
  | [], n, v => [(n, v)]
  | e :: l, n, v => if e.1 = n then (n, v) :: l else e :: setEntry l n v

/-- Real directories never list the same name twice. -/
def keysNodup (l : Listing) : Prop :=
  (l.map Prod.fst).Nodup

instance (l : Listing) : Decidable (keysNodup l) := by
  unfold keysNodup
  infer_instance

def isFileNode : Node → Bool
  | Node.file _ _ => true
  | Node.dir _ => false

def isEmptyDirNode : Node → Bool
  | Node.dir [] => true
  | _ => false

/-! ## The organize stage (`organize_files`, 456FileFix.py lines 31-57)

`folders` is the configured rule mapping; a Python `dict` preserves insertion
order, so it is embedded as an ordered list of `(folder, extension list)`
pairs with distinct folder names. -/

abbrev Rules := List (String × List String)

/-- Line 46: `any(file.endswith(extension) for extension in extensions)`.
Python's `str.endswith` is the literal character-suffix test, embedded here
over the character sequences of the strings. -/
def matchesFolder (extensions : List String) (filename : String) : Bool :=
  extensions.any (fun e => e.data.isSuffixOf filename.data)

/-- Lines 45-51: the inner rule loop with its `break` — the first folder (in
rule order) one of whose suffixes the filename ends with, if any. -/
def classify (rules : Rules) (filename : String) : Option String :=
  (rules.find? (fun r => matchesFolder r.2 filename)).map Prod.fst

/-- Lines 33-36: create each configured folder that does not already exist.
`folder_path.exists()` is true for a file as well as for a directory, so an
entry of either kind suppresses the `mkdir`. -/
def ensureFolders : Rules → Listing → Listing
  | [], d => d
  | (folder, _) :: rs, d =>
    ensureFolders rs
      (if (lookupEntry d folder).isSome then d else d ++ [(folder, Node.dir [])])

/-- `file_counts[folder] += 1` on a `collections.Counter`. -/
def bump (counts : String → Nat) (folder : String) : String → Nat :=
  fun g => if g = folder then counts g + 1 else counts g

/-- Line 48: `shutil.move(file_path, destination_path)` where
`destination_path = download_dir/folder/file`.  Following `shutil.move`:
if the destination is an existing directory the file goes *inside* it under
its own basename, unless that inner path already exists (then `shutil.Error`
is raised); otherwise `os.rename` overwrites an existing file and fails if
the destination folder is missing or is itself a regular file. -/
def moveFile (st : Listing) (n : String) (c : Bytes) (r : Bool) (folder : String) :
    Except Unit Listing :=
  match lookupEntry st folder with
  | some (Node.dir es) =>
    match lookupEntry es n with
    | some (Node.dir sub) =>
      match lookupEntry sub n with
      | some _ => Except.error ()
      | none =>
        Except.ok (setEntry (removeEntry st n) folder
          (Node.dir (setEntry es n (Node.dir (setEntry sub n (Node.file c r))))))
    | _ =>
      Except.ok (setEntry (removeEntry st n) folder
        (Node.dir (setEntry es n (Node.file c r))))
  | _ => Except.error ()

/-- Lines 42-52: the main loop of `organize_files` over the snapshot of
directory names taken by `os.listdir(download_dir)`.  Each name is re-checked
live with `is_file()`; matched files are moved and counted, with any uncaught
exception aborting the whole stage. -/
def organizeLoop (rules : Rules) :
    List String → Listing → (String → Nat) → Except Unit (Listing × (String → Nat))
  | [], st, counts => Except.ok (st, counts)
  | n :: ns, st, counts =>
    match lookupEntry st n with
    | some (Node.file c r) =>
      match classify rules n with
      | some folder =>
        match moveFile st n c r folder with
        | Except.ok st2 => organizeLoop rules ns st2 (bump counts folder)
        | Except.error e => Except.error e
      | none => organizeLoop rules ns st counts
    | _ => organizeLoop rules ns st counts

/-- `organize_files(folders, download_dir)`: create the configured folders,
then walk a snapshot of the download directory listing (taken after folder
creation, line 42) and move every matched regular file, returning the
per-folder move counter. -/
def organize_files (rules : Rules) (d : Listing) :
    Except Unit (Listing × (String → Nat)) :=
  organizeLoop rules ((ensureFolders rules d).map Prod.fst)
    (ensureFolders rules d) (fun _ => 0)

/-! ## The deduplicate stage (`remove_duplicates`, 456FileFix.py lines 59-81) -/

/-- Lines 67-77: one folder's pass over the snapshot `files = os.listdir(...)`.
Each name still denoting a regular file is hashed; opening an unreadable file
raises (uncaught, so the whole pass aborts); a digest already in `seen` causes
`os.remove`, otherwise the digest is recorded. -/
def dedupFolderLoop (hash : Bytes → Nat) :
    List String → Listing → List Nat → Except Unit Listing
  | [], es, _ => Except.ok es
  | n :: ns, es, seen =>
    match lookupEntry es n with
    | some (Node.file c r) =>
      if r then
        if (hash c) ∈ seen then dedupFolderLoop hash ns (removeEntry es n) seen
        else dedupFolderLoop hash ns es (hash c :: seen)
      else Except.error ()
    | _ => dedupFolderLoop hash ns es seen

/-- One folder's deduplication pass, starting from an empty `seen` set. -/
def dedupFolder (hash : Bytes → Nat) (es : Listing) : Except Unit Listing :=
  dedupFolderLoop hash (es.map Prod.fst) es []

/-- Lines 59-81: `remove_duplicates(folders, download_dir)` — deduplicate each
configured folder in rule order.  `os.listdir` on a missing or non-directory
folder raises, and no exception is caught. -/
def remove_duplicates (hash : Bytes → Nat) : Rules → Listing → Except Unit Listing
  | [], d => Except.ok d
  | (folder, _) :: rs, d =>
    match lookupEntry d folder with
    | some (Node.dir es) =>
      match dedupFolder hash es with
      | Except.ok es2 => remove_duplicates hash rs (setEntry d folder (Node.dir es2))
      | Except.error e => Except.error e
    | _ => Except.error ()

/-! ## The cleanup stage (`clean_up_empty_folders`, 456FileFix.py lines 83-89) -/

/-- Lines 85-89: walk the snapshot of top-level names; each name that is still
live a directory with zero entries is removed.  No recursion, no re-scan. -/
def cleanLoop : List String → Listing → Listing
  | [], st => st
  | n :: ns, st =>
    match lookupEntry st n with
    | some (Node.dir []) => cleanLoop ns (removeEntry st n)
    | _ => cleanLoop ns st

def clean_up_empty_folders (d : Listing) : Listing :=
  cleanLoop (d.map Prod.fst) d

/-! ## The orchestrator (`main`, 456FileFix.py lines 103-115)

`main` parses the CLI, loads the configuration, and then runs the three
stages in sequence (lines 112-114); `generate_summary` only prints.  The
stage sequencing on an existing download directory is embedded here; note
that `main` performs no validation of the configuration before running. -/

def run_pipeline (hash : Bytes → Nat) (rules : Rules) (d : Listing) :
    Except Unit (Listing × (String → Nat)) :=
  match organize_files rules d with
  | Except.error e => Except.error e
  | Except.ok (d1, counts) =>
    match remove_duplicates hash rules d1 with
    | Except.error e => Except.error e
    | Except.ok d2 => Except.ok (clean_up_empty_folders d2, counts)

/-! ## Derived quantities used in the statements -/

/-- The number of regular files of a listing that the classifier routes to
`folder` — what FolderCounts is supposed to count. -/
def routedCount (rules : Rules) (d : Listing) (folder : String) : Nat :=
  (d.filter (fun e => isFileNode e.2 && (classify rules e.1 == some folder))).length

/-- Whether the name `m`, looked up live in `st`, is a regular file that the
classifier routes to `folder`. -/
def liveMatch (rules : Rules) (st : Listing) (m folder : String) : Bool :=
  match lookupEntry st m with
  | some (Node.file _ _) => classify rules m == some folder
  | _ => false

/-- The first name of `ns` (the listing order) that denotes a regular file of
`es` whose content hashes to `h` — the deduplication survivor for digest `h`. -/
def firstMatch (hash : Bytes → Nat) (es : Listing) (h : Nat) : List String → Option String
  | [] => none
  | n :: ns =>
    match lookupEntry es n with
    | some (Node.file c _) => if hash c = h then some n else firstMatch hash es h ns
    | _ => firstMatch hash es h ns

/-! ## Basic lemmas about the directory primitives -/

theorem mem_keys_of_lookupEntry {l : Listing} {n : String} {v : Node}
    (h : lookupEntry l n = some v) : n ∈ l.map Prod.fst := by
  induction l with
  | nil => simp [lookupEntry] at h
  | cons e t ih =>
    by_cases he : e.1 = n
    · simp [he]
    · simp only [lookupEntry, if_neg he] at h
      simpa using Or.inr (ih h)

theorem lookupEntry_eq_none_of_not_mem {l : Listing} {n : String}
    (h : n ∉ l.map Prod.fst) : lookupEntry l n = none := by
  induction l with
  | nil => rfl
  | cons e t ih =>
    simp only [List.map_cons, List.mem_cons, not_or] at h
    have hne : ¬ (e.1 = n) := fun he => h.1 he.symm
    simp only [lookupEntry, if_neg hne, ih h.2]

theorem mem_of_lookupEntry {l : Listing} {n : String} {v : Node}
    (h : lookupEntry l n = some v) : (n, v) ∈ l := by
  induction l with
  | nil => simp [lookupEntry] at h
  | cons e t ih =>
    by_cases he : e.1 = n
    · simp only [lookupEntry, if_pos he] at h
      cases e with
      | mk a b =>
        injection h with h2
        subst h2
        cases he
        exact List.mem_cons_self _ _
    · simp only [lookupEntry, if_neg he] at h
      exact List.mem_cons_of_mem _ (ih h)

theorem lookupEntry_of_mem {l : Listing} {n : String} {v : Node}
    (hkeys : keysNodup l) (h : (n, v) ∈ l) : lookupEntry l n = some v := by
  induction l with
  | nil => simp at h
  | cons e t ih =>
    rcases List.mem_cons.mp h with h1 | h1
    · simp [lookupEntry, ← h1]
    · have hne : e.1 ≠ n := by
        intro he
        have hmem : n ∈ t.map Prod.fst := List.mem_map.mpr ⟨(n, v), h1, rfl⟩
        have := (List.nodup_cons.mp hkeys).1
        rw [he] at this
        exact this hmem
      have ht : keysNodup t := (List.nodup_cons.mp hkeys).2
      simp [lookupEntry, if_neg hne, ih ht h1]

theorem lookupEntry_append {l1 l2 : Listing} {n : String} :
    lookupEntry (l1 ++ l2) n =
      (lookupEntry l1 n).elim (lookupEntry l2 n) (fun v => some v) := by
  induction l1 with
  | nil => simp [lookupEntry]
  | cons e t ih =>
    by_cases he : e.1 = n
    · simp [lookupEntry, if_pos he]
    · simp [lookupEntry, if_neg he, ih]

theorem lookupEntry_setEntry_self (l : Listing) (n : String) (v : Node) :
    lookupEntry (setEntry l n v) n = some v := by
  induction l with
  | nil => simp [setEntry, lookupEntry]
  | cons e t ih =>
    by_cases he : e.1 = n
    · simp [setEntry, if_pos he, lookupEntry]
    · simp [setEntry, if_neg he, lookupEntry, if_neg he, ih]

theorem lookupEntry_setEntry_ne {m n : String} (l : Listing) (v : Node)
    (h : m ≠ n) : lookupEntry (setEntry l n v) m = lookupEntry l m := by
  induction l with
  | nil =>
    have hnm : ¬ (n = m) := fun hx => h hx.symm
    simp [setEntry, lookupEntry, hnm]
  | cons e t ih =>
    by_cases he : e.1 = n
    · have hnm : ¬ (n = m) := fun hx => h hx.symm
      have hem : ¬ (e.1 = m) := by rw [he]; exact hnm
      simp [setEntry, if_pos he, lookupEntry, hnm, hem]
    · simp only [setEntry, if_neg he, lookupEntry]
      by_cases hem : e.1 = m
      · simp [hem]
      · simp [if_neg hem, ih]

theorem lookupEntry_removeEntry_self (l : Listing) (n : String) :
    lookupEntry (removeEntry l n) n = none := by
  apply lookupEntry_eq_none_of_not_mem
  intro hmem
  rcases List.mem_map.mp hmem with ⟨e, he, hfst⟩
  rcases List.mem_filter.mp he with ⟨_, hne⟩
  rw [hfst] at hne
  simp at hne

theorem lookupEntry_removeEntry_ne {m n : String} (l : Listing)
    (h : m ≠ n) : lookupEntry (removeEntry l m) n = lookupEntry l n := by
  induction l with
  | nil => rfl
  | cons e t ih =>
    by_cases he : e.1 = m
    · have hen : ¬ (e.1 = n) := by rw [he]; exact h
      have hstep : removeEntry (e :: t) m = removeEntry t m := by
        simp [removeEntry, List.filter_cons, he]
      rw [hstep, ih, lookupEntry, if_neg hen]
    · have hstep : removeEntry (e :: t) m = e :: removeEntry t m := by
        simp [removeEntry, List.filter_cons, he]
      rw [hstep]
      by_cases hen : e.1 = n
      · simp [lookupEntry, hen]
      · simp [lookupEntry, hen, ih]

theorem keys_setEntry_mem {l : Listing} {n : String} (v : Node)
    (h : n ∈ l.map Prod.fst) : (setEntry l n v).map Prod.fst = l.map Prod.fst := by
  induction l with
  | nil => simp at h
  | cons e t ih =>
    by_cases he : e.1 = n
    · simp [setEntry, if_pos he, he]
    · simp only [List.map_cons, List.mem_cons] at h
      rcases h with h | h
      · exact absurd h.symm he
      · simp [setEntry, if_neg he, ih h]

theorem keys_setEntry_not_mem {l : Listing} {n : String} (v : Node)
    (h : n ∉ l.map Prod.fst) : (setEntry l n v).map Prod.fst = l.map Prod.fst ++ [n] := by
  induction l with
  | nil => simp [setEntry]
  | cons e t ih =>
    simp only [List.map_cons, List.mem_cons, not_or] at h
    have hne : ¬ (e.1 = n) := fun he => h.1 he.symm
    simp [setEntry, if_neg hne, ih h.2]

theorem keysNodup_setEntry {l : Listing} {n : String} (v : Node)
    (h : keysNodup l) : keysNodup (setEntry l n v) := by
  by_cases hm : n ∈ l.map Prod.fst
  · unfold keysNodup
    rw [keys_setEntry_mem v hm]
    exact h
  · unfold keysNodup
    rw [keys_setEntry_not_mem v hm, List.nodup_append]
    refine ⟨h, List.nodup_singleton n, ?_⟩
    intro a ha hb
    simp only [List.mem_singleton] at hb
    subst hb
    exact hm ha

theorem keysNodup_removeEntry {l : Listing} (n : String)
    (h : keysNodup l) : keysNodup (removeEntry l n) := by
  unfold keysNodup removeEntry
  exact List.Nodup.sublist (List.Sublist.map Prod.fst (List.filter_sublist l)) h

theorem keysNodup_append_single {l : Listing} {n : String} (v : Node)
    (h : keysNodup l) (hn : n ∉ l.map Prod.fst) : keysNodup (l ++ [(n, v)]) := by
  unfold keysNodup
  rw [List.map_append, List.nodup_append]
  refine ⟨h, List.nodup_singleton n, ?_⟩
  intro a ha hb
  simp only [List.map_cons, List.map_nil, List.mem_singleton] at hb
  subst hb
  exact hn ha

theorem node_ne_of_lookup_file_dir {l : Listing} {m n : String} {c : Bytes} {r : Bool}
    {es : Listing} (hm : lookupEntry l m = some (Node.file c r))
    (hn : lookupEntry l n = some (Node.dir es)) : m ≠ n := by
  intro h
  rw [h, hn] at hm
  simp at hm

theorem lookupEntry_isSome_of_mem_keys {l : Listing} {n : String}
    (h : n ∈ l.map Prod.fst) : (lookupEntry l n).isSome := by
  induction l with
  | nil => simp at h
  | cons e t ih =>
    by_cases he : e.1 = n
    · simp [lookupEntry, if_pos he]
    · simp only [List.map_cons, List.mem_cons] at h
      rcases h with h | h
      · exact absurd h.symm he
      · simp [lookupEntry, if_neg he, ih h]

theorem not_mem_keys_of_lookupEntry_eq_none {l : Listing} {n : String}
    (h : lookupEntry l n = none) : n ∉ l.map Prod.fst := by
  intro hmem
  have := lookupEntry_isSome_of_mem_keys hmem
  rw [h] at this
  simp at this

/-! ## Lemmas about `classify` and `ensureFolders` -/

theorem classify_mem_keys {rules : Rules} {n F : String}
    (h : classify rules n = some F) : F ∈ rules.map Prod.fst := by
  unfold classify at h
  rcases Option.map_eq_some'.mp h with ⟨r, hr, hf⟩
  subst hf
  exact List.mem_map.mpr ⟨r, List.mem_of_find?_eq_some hr, rfl⟩

/-- Folder creation only appends fresh entries, all of them empty directories. -/
theorem ensureFolders_shape (rs : Rules) (d : Listing) :
    ∃ extra, ensureFolders rs d = d ++ extra ∧
      ∀ e, e ∈ extra → e.2 = Node.dir [] := by
  induction rs generalizing d with
  | nil => exact ⟨[], by simp [ensureFolders], by simp⟩
  | cons p rs ih =>
    cases p with
    | mk folder exts =>
      by_cases hs : (lookupEntry d folder).isSome
      · rcases ih d with ⟨extra, hev, hdirs⟩
        refine ⟨extra, ?_, hdirs⟩
        simpa [ensureFolders, hs] using hev
      · rcases ih (d ++ [(folder, Node.dir [])]) with ⟨extra, hev, hdirs⟩
        refine ⟨(folder, Node.dir []) :: extra, ?_, ?_⟩
        · have hstep : ensureFolders ((folder, exts) :: rs) d
              = ensureFolders rs (d ++ [(folder, Node.dir [])]) := by
            simp [ensureFolders, hs]
          rw [hstep, hev]
          simp
        · intro e he
          rcases List.mem_cons.mp he with he | he
          · rw [he]
          · exact hdirs e he

theorem ensureFolders_preserves {rs : Rules} {d : Listing} {X : String} {v : Node}
    (h : lookupEntry d X = some v) : lookupEntry (ensureFolders rs d) X = some v := by
  rcases ensureFolders_shape rs d with ⟨extra, hev, _⟩
  rw [hev, lookupEntry_append, h]
  rfl

theorem ensureFolders_lookup_inv {rs : Rules} {d : Listing} {X : String} {v : Node}
    (h : lookupEntry (ensureFolders rs d) X = some v) :
    lookupEntry d X = some v ∨ (lookupEntry d X = none ∧ v = Node.dir []) := by
  rcases ensureFolders_shape rs d with ⟨extra, hev, hdirs⟩
  rw [hev, lookupEntry_append] at h
  cases hd : lookupEntry d X with
  | some w =>
    rw [hd] at h
    simp only [Option.elim_some] at h
    exact Or.inl h
  | none =>
    rw [hd] at h
    simp only [Option.elim_none] at h
    exact Or.inr ⟨rfl, hdirs (X, v) (mem_of_lookupEntry h)⟩

theorem ensureFolders_file_iff {rs : Rules} {d : Listing} {X : String}
    {c : Bytes} {r : Bool} :
    lookupEntry (ensureFolders rs d) X = some (Node.file c r) ↔
      lookupEntry d X = some (Node.file c r) := by
  constructor
  · intro h
    rcases ensureFolders_lookup_inv h with h | ⟨_, h2⟩
    · exact h
    · simp at h2
  · exact ensureFolders_preserves

theorem ensureFolders_keysNodup {rs : Rules} {d : Listing}
    (h : keysNodup d) : keysNodup (ensureFolders rs d) := by
  induction rs generalizing d with
  | nil => exact h
  | cons p rs ih =>
    cases p with
    | mk folder exts =>
      by_cases hs : (lookupEntry d folder).isSome
      · simpa [ensureFolders, hs] using ih h
      · have hnone : lookupEntry d folder = none := by
          cases hl : lookupEntry d folder with
          | none => rfl
          | some v => rw [hl] at hs; simp at hs
        have hnm := not_mem_keys_of_lookupEntry_eq_none hnone
        simp only [ensureFolders, hs, if_neg]
        exact ih (keysNodup_append_single _ h hnm)

theorem ensureFolders_dir_of_none {rs : Rules} {d : Listing} {X : String}
    (hnone : lookupEntry d X = none) (hmem : X ∈ rs.map Prod.fst) :
    lookupEntry (ensureFolders rs d) X = some (Node.dir []) := by
  induction rs generalizing d with
  | nil => simp at hmem
  | cons p rs ih =>
    cases p with
    | mk folder exts =>
      by_cases hX : folder = X
      · subst hX
        have hs : ¬ (lookupEntry d folder).isSome := by rw [hnone]; simp
        have hstep : ensureFolders ((folder, exts) :: rs) d
            = ensureFolders rs (d ++ [(folder, Node.dir [])]) := by
          simp [ensureFolders, hs]
        rw [hstep]
        apply ensureFolders_preserves
        rw [lookupEntry_append, hnone]
        simp [lookupEntry]
      · have hmem2 : X ∈ rs.map Prod.fst := by
          simp only [List.map_cons, List.mem_cons] at hmem
          rcases hmem with h | h
          · exact absurd h.symm hX
          · exact h
        by_cases hs : (lookupEntry d folder).isSome
        · have hstep : ensureFolders ((folder, exts) :: rs) d = ensureFolders rs d := by
            simp [ensureFolders, hs]
          rw [hstep]
          exact ih hnone hmem2
        · have hstep : ensureFolders ((folder, exts) :: rs) d
              = ensureFolders rs (d ++ [(folder, Node.dir [])]) := by
            simp [ensureFolders, hs]
          rw [hstep]
          apply ih _ hmem2
          rw [lookupEntry_append, hnone]
          simp [lookupEntry, hX]

theorem routedCount_append (rules : Rules) (d1 d2 : Listing) (F : String) :
    routedCount rules (d1 ++ d2) F = routedCount rules d1 F + routedCount rules d2 F := by
  unfold routedCount
  rw [List.filter_append, List.length_append]

theorem routedCount_ensureFolders (rs : Rules) (rules : Rules) (d : Listing) (F : String) :
    routedCount rules (ensureFolders rs d) F = routedCount rules d F := by
  rcases ensureFolders_shape rs d with ⟨extra, hev, hdirs⟩
  rw [hev, routedCount_append]
  have : routedCount rules extra F = 0 := by
    unfold routedCount
    rw [List.length_eq_zero]
    rw [List.filter_eq_nil_iff]
    intro e he
    rw [hdirs e he]
    simp [isFileNode]
  rw [this]
  omega

/-! ## Lemmas about `moveFile` -/

/-- A successful move replaces the destination folder's listing by an update at
the moved file's name and drops the source entry; every other slot of the
destination folder is untouched. -/
theorem moveFile_ok_shape {st : Listing} {n : String} {c : Bytes} {r : Bool}
    {F : String} {st' : Listing} (h : moveFile st n c r F = Except.ok st') :
    ∃ es es2, lookupEntry st F = some (Node.dir es) ∧
      st' = setEntry (removeEntry st n) F (Node.dir es2) ∧
      (∀ x, x ≠ n → lookupEntry es2 x = lookupEntry es x) := by
  unfold moveFile at h
  split at h
  · rename_i es hF
    split at h
    · rename_i sub hn
      split at h
      · exact absurd h (by simp)
      · rename_i hs
        refine ⟨es, setEntry es n (Node.dir (setEntry sub n (Node.file c r))), hF, ?_, ?_⟩
        · exact (Except.ok.inj h).symm
        · intro x hx
          exact lookupEntry_setEntry_ne es _ hx
    · rename_i hn
      refine ⟨es, setEntry es n (Node.file c r), hF, ?_, ?_⟩
      · exact (Except.ok.inj h).symm
      · intro x hx
        exact lookupEntry_setEntry_ne es _ hx
  · exact absurd h (by simp)

/-- When the destination slot is not a directory, the move is a plain overwrite. -/
theorem moveFile_ok_plain {st : Listing} {n : String} {c : Bytes} {r : Bool}
    {F : String} {st' : Listing} {es : Listing}
    (h : moveFile st n c r F = Except.ok st')
    (hF : lookupEntry st F = some (Node.dir es))
    (hdest : ∀ sub, lookupEntry es n ≠ some (Node.dir sub)) :
    st' = setEntry (removeEntry st n) F (Node.dir (setEntry es n (Node.file c r))) := by
  unfold moveFile at h
  split at h
  · rename_i es0 hF0
    have hes : es0 = es := by
      rw [hF0] at hF
      injection hF with hF
      injection hF
    subst hes
    split at h
    · rename_i sub hn
      exact absurd hn (hdest sub)
    · exact (Except.ok.inj h).symm
  · rename_i hbad
    exact absurd hF (hbad es)

theorem moveFile_lookup_preserved {st : Listing} {n : String} {c : Bytes} {r : Bool}
    {F : String} {st' : Listing} {x : String}
    (h : moveFile st n c r F = Except.ok st')
    (hx1 : x ≠ n) (hx2 : x ≠ F) : lookupEntry st' x = lookupEntry st x := by
  rcases moveFile_ok_shape h with ⟨es, es2, hF, hst, _⟩
  rw [hst, lookupEntry_setEntry_ne _ _ hx2, lookupEntry_removeEntry_ne _ (fun he => hx1 he.symm)]

theorem moveFile_lookup_src {st : Listing} {n : String} {c : Bytes} {r : Bool}
    {F : String} {st' : Listing}
    (h : moveFile st n c r F = Except.ok st') (hnF : n ≠ F) :
    lookupEntry st' n = none := by
  rcases moveFile_ok_shape h with ⟨es, es2, hF, hst, _⟩
  rw [hst, lookupEntry_setEntry_ne _ _ hnF, lookupEntry_removeEntry_self]

theorem moveFile_lookup_dest {st : Listing} {n : String} {c : Bytes} {r : Bool}
    {F : String} {st' : Listing}
    (h : moveFile st n c r F = Except.ok st') :
    ∃ es2, lookupEntry st' F = some (Node.dir es2) := by
  rcases moveFile_ok_shape h with ⟨es, es2, hF, hst, _⟩
  exact ⟨es2, by rw [hst, lookupEntry_setEntry_self]⟩

theorem moveFile_keysNodup {st : Listing} {n : String} {c : Bytes} {r : Bool}
    {F : String} {st' : Listing}
    (h : moveFile st n c r F = Except.ok st') (hkeys : keysNodup st) :
    keysNodup st' := by
  rcases moveFile_ok_shape h with ⟨es, es2, hF, hst, _⟩
  rw [hst]
  exact keysNodup_setEntry _ (keysNodup_removeEntry _ hkeys)

/-! ## Invariants of the organize loop -/

theorem organizeLoop_keysNodup {rules : Rules} {ns : List String} {st : Listing}
    {counts : String → Nat} {st' : Listing} {counts' : String → Nat}
    (hok : organizeLoop rules ns st counts = Except.ok (st', counts'))
    (hkeys : keysNodup st) : keysNodup st' := by
  induction ns generalizing st counts with
  | nil =>
    unfold organizeLoop at hok
    simp only [Except.ok.injEq, Prod.mk.injEq] at hok
    rw [← hok.1]
    exact hkeys
  | cons m ns ih =>
    unfold organizeLoop at hok
    split at hok
    · rename_i c0 r0 hm
      split at hok
      · rename_i F0 hF0
        split at hok
        · rename_i st2 hmv
          exact ih hok (moveFile_keysNodup hmv hkeys)
        · exact absurd hok (by simp)
      · exact ih hok hkeys
    · exact ih hok hkeys

/-- Once a name is gone from the top level and will not be processed again,
the rest of the loop never recreates it, and never touches its slot inside
any folder. -/
theorem organizeLoop_absent_frame {rules : Rules} {ns : List String} {st : Listing}
    {counts : String → Nat} {st' : Listing} {counts' : String → Nat}
    {n F : String} {es2 : Listing}
    (hok : organizeLoop rules ns st counts = Except.ok (st', counts'))
    (hns : n ∉ ns) (htop : lookupEntry st n = none)
    (hF : lookupEntry st F = some (Node.dir es2)) :
    lookupEntry st' n = none ∧
      ∃ es', lookupEntry st' F = some (Node.dir es') ∧
        lookupEntry es' n = lookupEntry es2 n := by
  induction ns generalizing st counts es2 with
  | nil =>
    unfold organizeLoop at hok
    simp only [Except.ok.injEq, Prod.mk.injEq] at hok
    rw [← hok.1]
    exact ⟨htop, es2, hF, rfl⟩
  | cons m ns ih =>
    have hmn : n ≠ m := by
      intro he
      exact hns (he ▸ List.mem_cons_self m ns)
    have hns2 : n ∉ ns := fun hx => hns (List.mem_cons_of_mem m hx)
    unfold organizeLoop at hok
    split at hok
    · rename_i c0 r0 hm
      split at hok
      · rename_i F0 hF0
        split at hok
        · rename_i st2 hmv
          rcases moveFile_ok_shape hmv with ⟨es0, es02, hF0dir, hshape, hoth⟩
          have hnF0 : n ≠ F0 := by
            intro he
            rw [he, hF0dir] at htop
            exact Option.noConfusion htop
          have htop2 : lookupEntry st2 n = none := by
            rw [moveFile_lookup_preserved hmv hmn hnF0]
            exact htop
          by_cases hFF0 : F = F0
          · subst hFF0
            have hes : es0 = es2 := by
              rw [hF] at hF0dir
              injection hF0dir with hx
              injection hx with hy
              exact hy.symm
            subst hes
            have hF2 : lookupEntry st2 F = some (Node.dir es02) := by
              rw [hshape, lookupEntry_setEntry_self]
            rcases ih hok hns2 htop2 hF2 with ⟨h1, es3, h2, h3⟩
            exact ⟨h1, es3, h2, by rw [h3, hoth n hmn]⟩
          · have hmF : m ≠ F := node_ne_of_lookup_file_dir hm hF
            have hF2 : lookupEntry st2 F = some (Node.dir es2) := by
              rw [moveFile_lookup_preserved hmv (fun he => hmF he.symm)
                (fun he => hFF0 he)]
              exact hF
            exact ih hok hns2 htop2 hF2
        · exact absurd hok (by simp)
      · exact ih hok hns2 htop hF
    · exact ih hok hns2 htop hF

/-- A regular file that the classifier does not match is left exactly as it
was by the rest of the loop. -/
theorem organizeLoop_unmatched {rules : Rules} {ns : List String} {st : Listing}
    {counts : String → Nat} {st' : Listing} {counts' : String → Nat}
    {n : String} {c : Bytes} {r : Bool}
    (hok : organizeLoop rules ns st counts = Except.ok (st', counts'))
    (hn : lookupEntry st n = some (Node.file c r))
    (hcl : classify rules n = none) :
    lookupEntry st' n = some (Node.file c r) := by
  induction ns generalizing st counts with
  | nil =>
    unfold organizeLoop at hok
    simp only [Except.ok.injEq, Prod.mk.injEq] at hok
    rw [← hok.1]
    exact hn
  | cons m ns ih =>
    unfold organizeLoop at hok
    split at hok
    · rename_i c0 r0 hm
      split at hok
      · rename_i F0 hF0
        split at hok
        · rename_i st2 hmv
          rcases moveFile_ok_shape hmv with ⟨es0, es02, hF0dir, hshape, hoth⟩
          have hnm : n ≠ m := by
            intro he
            rw [he, hm] at hn
            injection hn with hx
            injection hx with h1 h2
            rw [he, hF0] at hcl
            exact Option.noConfusion hcl
          have hnF0 : n ≠ F0 := node_ne_of_lookup_file_dir hn hF0dir
          have hn2 : lookupEntry st2 n = some (Node.file c r) := by
            rw [moveFile_lookup_preserved hmv hnm hnF0]
            exact hn
          exact ih hok hn2
        · exact absurd hok (by simp)
      · exact ih hok hn
    · exact ih hok hn

/-- If no remaining top-level regular file matches any rule, the loop is the
identity: nothing is moved and nothing is counted. -/
theorem organizeLoop_skip_all {rules : Rules} (ns : List String) (st : Listing)
    (counts : String → Nat)
    (hall : ∀ n c r, lookupEntry st n = some (Node.file c r) → classify rules n = none) :
    organizeLoop rules ns st counts = Except.ok (st, counts) := by
  induction ns with
  | nil => rfl
  | cons m ns ih =>
    unfold organizeLoop
    cases hm : lookupEntry st m with
    | none => exact ih
    | some v =>
      cases v with
      | dir es => exact ih
      | file c r =>
        rw [hall m c r hm]
        exact ih

/-- A folder into which no processed file is routed keeps its listing verbatim
through the loop. -/
theorem organizeLoop_folder_frame {rules : Rules} {ns : List String} {st : Listing}
    {counts : String → Nat} {st' : Listing} {counts' : String → Nat}
    {F : String} {es : Listing}
    (hok : organizeLoop rules ns st counts = Except.ok (st', counts'))
    (hF : lookupEntry st F = some (Node.dir es))
    (hnr : ∀ m c r, m ∈ ns → lookupEntry st m = some (Node.file c r) →
      classify rules m ≠ some F) :
    lookupEntry st' F = some (Node.dir es) := by
  induction ns generalizing st counts with
  | nil =>
    unfold organizeLoop at hok
    simp only [Except.ok.injEq, Prod.mk.injEq] at hok
    rw [← hok.1]
    exact hF
  | cons m ns ih =>
    unfold organizeLoop at hok
    split at hok
    · rename_i c0 r0 hm
      split at hok
      · rename_i F0 hF0
        split at hok
        · rename_i st2 hmv
          rcases moveFile_ok_shape hmv with ⟨es0, es02, hF0dir, hshape, hoth⟩
          have hF0F : F0 ≠ F := by
            intro he
            exact hnr m c0 r0 (List.mem_cons_self m ns) hm (he ▸ hF0)
          have hmF : m ≠ F := node_ne_of_lookup_file_dir hm hF
          have hF2 : lookupEntry st2 F = some (Node.dir es) := by
            rw [moveFile_lookup_preserved hmv (fun he => hmF he.symm)
              (fun he => hF0F he.symm)]
            exact hF
          apply ih hok hF2
          intro m2 c2 r2 hm2 hlk2
          have hm2m : m2 ≠ m := by
            intro he
            rw [he] at hlk2
            have : lookupEntry st2 m = none := by
              rw [hshape,
                lookupEntry_setEntry_ne _ _ (node_ne_of_lookup_file_dir hm hF0dir),
                lookupEntry_removeEntry_self]
            rw [this] at hlk2
            exact Option.noConfusion hlk2
          have hm2F0 : m2 ≠ F0 := by
            intro he
            rw [he, hshape, lookupEntry_setEntry_self] at hlk2
            injection hlk2 with hx
            exact Node.noConfusion hx
          rw [moveFile_lookup_preserved hmv hm2m hm2F0] at hlk2
          exact hnr m2 c2 r2 (List.mem_cons_of_mem m hm2) hlk2
        · exact absurd hok (by simp)
      · exact ih hok hF (fun m2 c2 r2 hm2 hlk2 =>
          hnr m2 c2 r2 (List.mem_cons_of_mem m hm2) hlk2)
    · exact ih hok hF (fun m2 c2 r2 hm2 hlk2 =>
        hnr m2 c2 r2 (List.mem_cons_of_mem m hm2) hlk2)

/-- The heart of the organize stage: a matched regular file ends up inside its
classified destination folder and disappears from the top level. -/
theorem organizeLoop_matched {rules : Rules} {ns : List String} {st : Listing}
    {counts : String → Nat} {st' : Listing} {counts' : String → Nat}
    {n : String} {c : Bytes} {r : Bool} {F : String}
    (hok : organizeLoop rules ns st counts = Except.ok (st', counts'))
    (hnodup : ns.Nodup) (hmem : n ∈ ns)
    (hn : lookupEntry st n = some (Node.file c r))
    (hF : classify rules n = some F)
    (hdest : ∀ es sub, lookupEntry st F = some (Node.dir es) →
      lookupEntry es n ≠ some (Node.dir sub)) :
    lookupEntry st' n = none ∧
      ∃ es', lookupEntry st' F = some (Node.dir es') ∧
        lookupEntry es' n = some (Node.file c r) := by
  induction ns generalizing st counts with
  | nil => simp at hmem
  | cons m ns ih =>
    have hnodup2 : ns.Nodup := (List.nodup_cons.mp hnodup).2
    by_cases hnm : n = m
    · subst hnm
      have hnns : n ∉ ns := (List.nodup_cons.mp hnodup).1
      unfold organizeLoop at hok
      split at hok
      · rename_i c0 r0 hm
        rw [hn] at hm
        injection hm with hm
        injection hm with hmc hmr
        subst hmc
        subst hmr
        split at hok
        · rename_i F0 hF0
          rw [hF] at hF0
          injection hF0 with hF0
          subst hF0
          split at hok
          · rename_i st2 hmv
            rcases moveFile_ok_shape hmv with ⟨es0, es02, hFdir, hshape, hoth⟩
            have hnF : n ≠ F := node_ne_of_lookup_file_dir hn hFdir
            have hplain := moveFile_ok_plain hmv hFdir (fun sub => hdest es0 sub hFdir)
            have htop2 : lookupEntry st2 n = none := by
              rw [hplain, lookupEntry_setEntry_ne _ _ hnF, lookupEntry_removeEntry_self]
            have hF2 : lookupEntry st2 F
                = some (Node.dir (setEntry es0 n (Node.file c r))) := by
              rw [hplain, lookupEntry_setEntry_self]
            rcases organizeLoop_absent_frame hok hnns htop2 hF2 with ⟨h1, es3, h2, h3⟩
            refine ⟨h1, es3, h2, ?_⟩
            rw [h3, lookupEntry_setEntry_self]
          · exact absurd hok (by simp)
        · rename_i hF0
          rw [hF0] at hF
          exact Option.noConfusion hF
      · rename_i hlk
        rw [hn] at hlk
        exact absurd rfl (hlk c r)
    · have hmem2 : n ∈ ns := by
        rcases List.mem_cons.mp hmem with h | h
        · exact absurd h hnm
        · exact h
      unfold organizeLoop at hok
      split at hok
      · rename_i c0 r0 hm
        split at hok
        · rename_i F0 hF0
          split at hok
          · rename_i st2 hmv
            rcases moveFile_ok_shape hmv with ⟨es0, es02, hF0dir, hshape, hoth⟩
            have hnF0 : n ≠ F0 := node_ne_of_lookup_file_dir hn hF0dir
            have hn2 : lookupEntry st2 n = some (Node.file c r) := by
              rw [moveFile_lookup_preserved hmv hnm hnF0]
              exact hn
            refine ih hok hnodup2 hmem2 hn2 ?_
            intro es' sub hF2 hlk
            by_cases hFF0 : F = F0
            · subst hFF0
              have hF2self : lookupEntry st2 F = some (Node.dir es02) := by
                rw [hshape, lookupEntry_setEntry_self]
              rw [hF2self] at hF2
              injection hF2 with hx
              have hes : es02 = es' := by injection hx
              subst hes
              rw [hoth n hnm] at hlk
              exact hdest es0 sub hF0dir hlk
            · by_cases hFm : F = m
              · subst hFm
                have : lookupEntry st2 F = none := by
                  rw [hshape,
                    lookupEntry_setEntry_ne _ _ (node_ne_of_lookup_file_dir hm hF0dir),
                    lookupEntry_removeEntry_self]
                rw [this] at hF2
                exact Option.noConfusion hF2
              · rw [moveFile_lookup_preserved hmv hFm hFF0] at hF2
                exact hdest es' sub hF2 hlk
          · exact absurd hok (by simp)
        · exact ih hok hnodup2 hmem2 hn hdest
      · exact ih hok hnodup2 hmem2 hn hdest

/-- Folders other than a file's classified destination never have their slot
for that file's name touched by the loop. -/
theorem organizeLoop_other_folder {rules : Rules} {ns : List String} {st : Listing}
    {counts : String → Nat} {st' : Listing} {counts' : String → Nat}
    {n F X : String} {es0 : Listing}
    (hok : organizeLoop rules ns st counts = Except.ok (st', counts'))
    (hFcl : classify rules n = some F) (hXF : X ≠ F)
    (hX : lookupEntry st X = some (Node.dir es0)) :
    ∃ es', lookupEntry st' X = some (Node.dir es') ∧
      lookupEntry es' n = lookupEntry es0 n := by
  induction ns generalizing st counts es0 with
  | nil =>
    unfold organizeLoop at hok
    simp only [Except.ok.injEq, Prod.mk.injEq] at hok
    rw [← hok.1]
    exact ⟨es0, hX, rfl⟩
  | cons m ns ih =>
    unfold organizeLoop at hok
    split at hok
    · rename_i c0 r0 hm
      split at hok
      · rename_i F0 hF0
        split at hok
        · rename_i st2 hmv
          rcases moveFile_ok_shape hmv with ⟨es1, es12, hF0dir, hshape, hoth⟩
          have hmX : m ≠ X := node_ne_of_lookup_file_dir hm hX
          by_cases hF0X : F0 = X
          · subst hF0X
            have hes : es1 = es0 := by
              rw [hX] at hF0dir
              injection hF0dir with hx
              injection hx with hy
              exact hy.symm
            subst hes
            have hnm : n ≠ m := by
              intro he
              rw [he, hF0] at hFcl
              injection hFcl with hz
              exact hXF hz
            have hX2 : lookupEntry st2 F0 = some (Node.dir es12) := by
              rw [hshape, lookupEntry_setEntry_self]
            rcases ih hok hX2 with ⟨es3, h2, h3⟩
            exact ⟨es3, h2, by rw [h3, hoth n hnm]⟩
          · have hX2 : lookupEntry st2 X = some (Node.dir es0) := by
              rw [moveFile_lookup_preserved hmv (fun he => hmX he.symm)
                (fun he => hF0X he.symm)]
              exact hX
            exact ih hok hX2
        · exact absurd hok (by simp)
      · exact ih hok hX
    · exact ih hok hX

theorem liveMatch_congr {rules : Rules} {st1 st2 : Listing} {m Fq : String}
    (h : lookupEntry st1 m = lookupEntry st2 m) :
    liveMatch rules st1 m Fq = liveMatch rules st2 m Fq := by
  unfold liveMatch
  rw [h]

/-- FolderCounts bookkeeping: the loop adds, for each folder, exactly the
number of snapshot names that denote a regular file routed to that folder. -/
theorem organizeLoop_counts {rules : Rules} {ns : List String} {st : Listing}
    {counts : String → Nat} {st' : Listing} {counts' : String → Nat}
    (hok : organizeLoop rules ns st counts = Except.ok (st', counts'))
    (hnodup : ns.Nodup) :
    ∀ Fq, counts' Fq
      = counts Fq + (ns.filter (fun m => liveMatch rules st m Fq)).length := by
  induction ns generalizing st counts with
  | nil =>
    unfold organizeLoop at hok
    simp only [Except.ok.injEq, Prod.mk.injEq] at hok
    intro Fq
    rw [← hok.2]
    simp
  | cons m ns ih =>
    have hnodup2 : ns.Nodup := (List.nodup_cons.mp hnodup).2
    have hmns : m ∉ ns := (List.nodup_cons.mp hnodup).1
    unfold organizeLoop at hok
    split at hok
    · rename_i c0 r0 hm
      split at hok
      · rename_i F0 hF0
        split at hok
        · rename_i st2 hmv
          rcases moveFile_ok_shape hmv with ⟨es1, es12, hF0dir, hshape, hoth⟩
          have hstable : ∀ Fq, ns.filter (fun x => liveMatch rules st2 x Fq)
              = ns.filter (fun x => liveMatch rules st x Fq) := by
            intro Fq
            apply List.filter_congr
            intro x hx
            have hxm : x ≠ m := fun he => hmns (he ▸ hx)
            by_cases hxF0 : x = F0
            · subst hxF0
              have h1 : lookupEntry st2 x = some (Node.dir es12) := by
                rw [hshape, lookupEntry_setEntry_self]
              unfold liveMatch
              rw [h1, hF0dir]
            · exact liveMatch_congr (moveFile_lookup_preserved hmv hxm hxF0)
          intro Fq
          have hIH := ih hok hnodup2 Fq
          rw [hIH, hstable Fq]
          have hhead : liveMatch rules st m Fq = (some F0 == some Fq) := by
            unfold liveMatch
            rw [hm, hF0]
          by_cases hq : Fq = F0
          · subst hq
            have htrue : liveMatch rules st m Fq = true := by rw [hhead]; simp
            have hflt : List.filter (fun x => liveMatch rules st x Fq) (m :: ns)
                = m :: List.filter (fun x => liveMatch rules st x Fq) ns := by
              simp [List.filter_cons, htrue]
            have hb : bump counts Fq Fq = counts Fq + 1 := by
              unfold bump
              simp
            rw [hflt, List.length_cons, hb]
            omega
          · have hfalse : liveMatch rules st m Fq = false := by
              rw [hhead]
              simp only [beq_eq_false_iff_ne, ne_eq, Option.some.injEq]
              exact fun he => hq he.symm
            have hflt : List.filter (fun x => liveMatch rules st x Fq) (m :: ns)
                = List.filter (fun x => liveMatch rules st x Fq) ns := by
              simp [List.filter_cons, hfalse]
            have hb : bump counts F0 Fq = counts Fq := by
              unfold bump
              rw [if_neg hq]
            rw [hflt, hb]
        · exact absurd hok (by simp)
      · rename_i hF0
        intro Fq
        have hhead : liveMatch rules st m Fq = false := by
          unfold liveMatch
          rw [hm, hF0]
          rfl
        rw [List.filter_cons_of_neg (by rw [hhead]; simp)]
        exact ih hok hnodup2 Fq
    · rename_i hlk
      intro Fq
      have hhead : liveMatch rules st m Fq = false := by
        unfold liveMatch
        cases hx : lookupEntry st m with
        | none => rfl
        | some v =>
          cases v with
          | dir es => rfl
          | file c0 r0 => exact absurd hx (fun hc => hlk c0 r0 hc)
      rw [List.filter_cons_of_neg (by rw [hhead]; simp)]
      exact ih hok hnodup2 Fq

/-- After the loop has processed every name that could denote a matched file,
all remaining top-level regular files are unmatched. -/
theorem organizeLoop_top_unmatched {rules : Rules} {ns : List String} {st : Listing}
    {counts : String → Nat} {st' : Listing} {counts' : String → Nat}
    (hok : organizeLoop rules ns st counts = Except.ok (st', counts'))
    (hinv : ∀ n c r, lookupEntry st n = some (Node.file c r) →
      (classify rules n).isSome → n ∈ ns) :
    ∀ n c r, lookupEntry st' n = some (Node.file c r) → classify rules n = none := by
  induction ns generalizing st counts with
  | nil =>
    unfold organizeLoop at hok
    simp only [Except.ok.injEq, Prod.mk.injEq] at hok
    intro n c r hn
    rw [← hok.1] at hn
    cases hcl : classify rules n with
    | none => rfl
    | some F => exact absurd (hinv n c r hn (by rw [hcl]; rfl)) (by simp)
  | cons m ns ih =>
    unfold organizeLoop at hok
    split at hok
    · rename_i c0 r0 hm
      split at hok
      · rename_i F0 hF0
        split at hok
        · rename_i st2 hmv
          rcases moveFile_ok_shape hmv with ⟨es1, es12, hF0dir, hshape, hoth⟩
          apply ih hok
          intro n c r hn hcl
          have hnF0 : n ≠ F0 := by
            intro he
            rw [he, hshape, lookupEntry_setEntry_self] at hn
            injection hn with hx
            exact Node.noConfusion hx
          have hnm : n ≠ m := by
            intro he
            have hmgone : lookupEntry st2 m = none := by
              rw [hshape,
                lookupEntry_setEntry_ne _ _ (node_ne_of_lookup_file_dir hm hF0dir),
                lookupEntry_removeEntry_self]
            rw [he, hmgone] at hn
            exact Option.noConfusion hn
          rw [moveFile_lookup_preserved hmv hnm hnF0] at hn
          rcases List.mem_cons.mp (hinv n c r hn hcl) with h | h
          · exact absurd h hnm
          · exact h
        · exact absurd hok (by simp)
      · rename_i hF0
        apply ih hok
        intro n c r hn hcl
        have hnm : n ≠ m := by
          intro he
          rw [he, hm] at hn
          injection hn with hx
          injection hx with h1 h2
          rw [he, hF0] at hcl
          exact Bool.noConfusion hcl
        rcases List.mem_cons.mp (hinv n c r hn hcl) with h | h
        · exact absurd h hnm
        · exact h
    · rename_i hlk
      apply ih hok
      intro n c r hn hcl
      have hnm : n ≠ m := by
        intro he
        rw [he] at hn
        exact hlk c r hn
      rcases List.mem_cons.mp (hinv n c r hn hcl) with h | h
      · exact absurd h hnm
      · exact h

/-! ## Invariants of the deduplication loop -/

theorem dedupLoop_frame {hash : Bytes → Nat} {ns : List String} {es : Listing}
    {seen : List Nat} {es' : Listing} {n : String}
    (hok : dedupFolderLoop hash ns es seen = Except.ok es')
    (hns : n ∉ ns) : lookupEntry es' n = lookupEntry es n := by
  induction ns generalizing es seen with
  | nil =>
    unfold dedupFolderLoop at hok
    injection hok with hok
    rw [hok]
  | cons m ns ih =>
    have hmn : m ≠ n := fun he => hns (he ▸ List.mem_cons_self m ns)
    have hns2 : n ∉ ns := fun hx => hns (List.mem_cons_of_mem m hx)
    unfold dedupFolderLoop at hok
    split at hok
    · rename_i c0 r0 hm
      split at hok
      · split at hok
        · rw [ih hok hns2, lookupEntry_removeEntry_ne _ hmn]
        · exact ih hok hns2
      · exact absurd hok (by simp)
    · exact ih hok hns2

theorem dedupLoop_keysNodup {hash : Bytes → Nat} {ns : List String} {es : Listing}
    {seen : List Nat} {es' : Listing}
    (hok : dedupFolderLoop hash ns es seen = Except.ok es')
    (hkeys : keysNodup es) : keysNodup es' := by
  induction ns generalizing es seen with
  | nil =>
    unfold dedupFolderLoop at hok
    injection hok with hok
    rw [← hok]
    exact hkeys
  | cons m ns ih =>
    unfold dedupFolderLoop at hok
    split at hok
    · rename_i c0 r0 hm
      split at hok
      · split at hok
        · exact ih hok (keysNodup_removeEntry _ hkeys)
        · exact ih hok hkeys
      · exact absurd hok (by simp)
    · exact ih hok hkeys

theorem dedupLoop_subset {hash : Bytes → Nat} {ns : List String} {es : Listing}
    {seen : List Nat} {es' : Listing}
    (hok : dedupFolderLoop hash ns es seen = Except.ok es') :
    ∀ x, x ∈ es' → x ∈ es := by
  induction ns generalizing es seen with
  | nil =>
    unfold dedupFolderLoop at hok
    injection hok with hok
    rw [← hok]
    exact fun x hx => hx
  | cons m ns ih =>
    unfold dedupFolderLoop at hok
    split at hok
    · rename_i c0 r0 hm
      split at hok
      · split at hok
        · intro x hx
          exact List.mem_of_mem_filter (ih hok x hx)
        · exact ih hok
      · exact absurd hok (by simp)
    · exact ih hok

theorem firstMatch_cons_file {hash : Bytes → Nat} {es : Listing} {h : Nat}
    {m : String} {ns : List String} {c0 : Bytes} {r0 : Bool}
    (hm : lookupEntry es m = some (Node.file c0 r0)) :
    firstMatch hash es h (m :: ns)
      = if hash c0 = h then some m else firstMatch hash es h ns := by
  simp only [firstMatch, hm]

theorem firstMatch_cons_none {hash : Bytes → Nat} {es : Listing} {h : Nat}
    {m : String} {ns : List String}
    (hm : lookupEntry es m = none) :
    firstMatch hash es h (m :: ns) = firstMatch hash es h ns := by
  simp only [firstMatch, hm]

theorem firstMatch_cons_dir {hash : Bytes → Nat} {es : Listing} {h : Nat}
    {m : String} {ns : List String} {es2 : Listing}
    (hm : lookupEntry es m = some (Node.dir es2)) :
    firstMatch hash es h (m :: ns) = firstMatch hash es h ns := by
  simp only [firstMatch, hm]

theorem firstMatch_congr {hash : Bytes → Nat} {es1 es2 : Listing} {h : Nat}
    {ns : List String}
    (hc : ∀ m, m ∈ ns → lookupEntry es1 m = lookupEntry es2 m) :
    firstMatch hash es1 h ns = firstMatch hash es2 h ns := by
  induction ns with
  | nil => rfl
  | cons m ns ih =>
    have hm := hc m (List.mem_cons_self m ns)
    have ih2 := ih (fun x hx => hc x (List.mem_cons_of_mem m hx))
    cases hlm : lookupEntry es1 m with
    | none =>
      rw [firstMatch_cons_none hlm, firstMatch_cons_none (hm ▸ hlm), ih2]
    | some v =>
      cases v with
      | dir es0 =>
        rw [firstMatch_cons_dir hlm, firstMatch_cons_dir (hm ▸ hlm), ih2]
      | file c0 r0 =>
        rw [firstMatch_cons_file hlm, firstMatch_cons_file (hm ▸ hlm), ih2]

theorem firstMatch_isSome {hash : Bytes → Nat} {es : Listing} {ns : List String}
    {n : String} {c : Bytes} {r : Bool}
    (hmem : n ∈ ns) (hn : lookupEntry es n = some (Node.file c r)) :
    ∃ n0, firstMatch hash es (hash c) ns = some n0 := by
  induction ns with
  | nil => simp at hmem
  | cons m ns ih =>
    cases hlm : lookupEntry es m with
    | none =>
      have hnm : n ≠ m := by
        intro he
        rw [he, hlm] at hn
        exact Option.noConfusion hn
      rw [firstMatch_cons_none hlm]
      exact ih (by
        rcases List.mem_cons.mp hmem with h | h
        · exact absurd h hnm
        · exact h)
    | some v =>
      cases v with
      | dir es2 =>
        have hnm : n ≠ m := by
          intro he
          rw [he, hlm] at hn
          injection hn with hx
          exact Node.noConfusion hx
        rw [firstMatch_cons_dir hlm]
        exact ih (by
          rcases List.mem_cons.mp hmem with h | h
          · exact absurd h hnm
          · exact h)
      | file c0 r0 =>
        rw [firstMatch_cons_file hlm]
        by_cases hh : hash c0 = hash c
        · rw [if_pos hh]
          exact ⟨m, rfl⟩
        · rw [if_neg hh]
          have hnm : n ≠ m := by
            intro he
            rw [he, hlm] at hn
            injection hn with hx
            injection hx with h1 h2
            exact hh (by rw [h1])
          exact ih (by
            rcases List.mem_cons.mp hmem with h | h
            · exact absurd h hnm
            · exact h)

/-- The survivor lemma: the first-listed file bearing a digest not yet seen is
kept, with its entry untouched. -/
theorem dedupLoop_keep {hash : Bytes → Nat} {ns : List String} {es : Listing}
    {seen : List Nat} {es' : Listing} {n : String} {c : Bytes} {r : Bool}
    (hok : dedupFolderLoop hash ns es seen = Except.ok es')
    (hnodup : ns.Nodup) (hmem : n ∈ ns)
    (hn : lookupEntry es n = some (Node.file c r))
    (hseen : hash c ∉ seen)
    (hfirst : firstMatch hash es (hash c) ns = some n) :
    lookupEntry es' n = some (Node.file c r) := by
  induction ns generalizing es seen with
  | nil => simp at hmem
  | cons m ns ih =>
    have hnodup2 : ns.Nodup := (List.nodup_cons.mp hnodup).2
    by_cases hmn : m = n
    · subst hmn
      have hnns : m ∉ ns := (List.nodup_cons.mp hnodup).1
      unfold dedupFolderLoop at hok
      split at hok
      · rename_i c0 r0 hm
        rw [hn] at hm
        injection hm with hm
        injection hm with h1 h2
        subst h1
        subst h2
        cases r with
        | false => simp at hok
        | true =>
          have hok2 : (if (hash c) ∈ seen
              then dedupFolderLoop hash ns (removeEntry es m) seen
              else dedupFolderLoop hash ns es (hash c :: seen)) = Except.ok es' := hok
          rw [if_neg hseen] at hok2
          rw [dedupLoop_frame hok2 hnns]
          exact hn
      · rename_i hlk
        rw [hn] at hlk
        exact absurd rfl (hlk c r)
    · have hmns : m ∉ ns := (List.nodup_cons.mp hnodup).1
      have hmem2 : n ∈ ns := by
        rcases List.mem_cons.mp hmem with h | h
        · exact absurd h.symm hmn
        · exact h
      unfold dedupFolderLoop at hok
      split at hok
      · rename_i c0 r0 hm
        rw [firstMatch_cons_file hm] at hfirst
        cases r0 with
        | false => simp at hok
        | true =>
          have hok2 : (if (hash c0) ∈ seen
              then dedupFolderLoop hash ns (removeEntry es m) seen
              else dedupFolderLoop hash ns es (hash c0 :: seen)) = Except.ok es' := hok
          by_cases hin : (hash c0) ∈ seen
          · rw [if_pos hin] at hok2
            have hfc : hash c0 ≠ hash c := fun he => hseen (he ▸ hin)
            rw [if_neg hfc] at hfirst
            have hn2 : lookupEntry (removeEntry es m) n = some (Node.file c r) := by
              rw [lookupEntry_removeEntry_ne _ hmn]
              exact hn
            have hfirst2 : firstMatch hash (removeEntry es m) (hash c) ns = some n := by
              rw [firstMatch_congr (fun x hx => lookupEntry_removeEntry_ne _
                (fun he => hmns (by rw [he]; exact hx)))]
              exact hfirst
            exact ih hok2 hnodup2 hmem2 hn2 hseen hfirst2
          · rw [if_neg hin] at hok2
            by_cases hfc : hash c0 = hash c
            · rw [if_pos hfc] at hfirst
              injection hfirst with hx
              exact absurd hx hmn
            · rw [if_neg hfc] at hfirst
              have hseen2 : hash c ∉ hash c0 :: seen := by
                intro hx
                rcases List.mem_cons.mp hx with h | h
                · exact hfc h.symm
                · exact hseen h
              exact ih hok2 hnodup2 hmem2 hn hseen2 hfirst
      · rename_i hlk
        cases hlm : lookupEntry es m with
        | none =>
          rw [firstMatch_cons_none hlm] at hfirst
          exact ih hok hnodup2 hmem2 hn hseen hfirst
        | some v =>
          cases v with
          | dir es2 =>
            rw [firstMatch_cons_dir hlm] at hfirst
            exact ih hok hnodup2 hmem2 hn hseen hfirst
          | file c0 r0 => exact absurd hlm (fun hx => hlk c0 r0 hx)

/-- The deletion lemma: a file whose digest was already seen, or that is not
the first-listed bearer of its digest, is removed by the pass. -/
theorem dedupLoop_delete {hash : Bytes → Nat} {ns : List String} {es : Listing}
    {seen : List Nat} {es' : Listing} {n : String} {c : Bytes} {r : Bool}
    (hok : dedupFolderLoop hash ns es seen = Except.ok es')
    (hnodup : ns.Nodup) (hmem : n ∈ ns)
    (hn : lookupEntry es n = some (Node.file c r))
    (hcase : hash c ∈ seen ∨ firstMatch hash es (hash c) ns ≠ some n) :
    lookupEntry es' n = none := by
  induction ns generalizing es seen with
  | nil => simp at hmem
  | cons m ns ih =>
    have hnodup2 : ns.Nodup := (List.nodup_cons.mp hnodup).2
    by_cases hmn : m = n
    · subst hmn
      have hnns : m ∉ ns := (List.nodup_cons.mp hnodup).1
      unfold dedupFolderLoop at hok
      split at hok
      · rename_i c0 r0 hm
        rw [hn] at hm
        injection hm with hm
        injection hm with h1 h2
        subst h1
        subst h2
        cases r with
        | false => simp at hok
        | true =>
          have hok2 : (if (hash c) ∈ seen
              then dedupFolderLoop hash ns (removeEntry es m) seen
              else dedupFolderLoop hash ns es (hash c :: seen)) = Except.ok es' := hok
          by_cases hin : (hash c) ∈ seen
          · rw [if_pos hin] at hok2
            rw [dedupLoop_frame hok2 hnns, lookupEntry_removeEntry_self]
          · rw [if_neg hin] at hok2
            rcases hcase with hc1 | hc2
            · exact absurd hc1 hin
            · rw [firstMatch_cons_file hn, if_pos rfl] at hc2
              exact absurd rfl hc2
      · rename_i hlk
        rw [hn] at hlk
        exact absurd rfl (hlk c r)
    · have hmns : m ∉ ns := (List.nodup_cons.mp hnodup).1
      have hmem2 : n ∈ ns := by
        rcases List.mem_cons.mp hmem with h | h
        · exact absurd h.symm hmn
        · exact h
      unfold dedupFolderLoop at hok
      split at hok
      · rename_i c0 r0 hm
        cases r0 with
        | false => simp at hok
        | true =>
          have hok2 : (if (hash c0) ∈ seen
              then dedupFolderLoop hash ns (removeEntry es m) seen
              else dedupFolderLoop hash ns es (hash c0 :: seen)) = Except.ok es' := hok
          by_cases hin : (hash c0) ∈ seen
          · rw [if_pos hin] at hok2
            have hn2 : lookupEntry (removeEntry es m) n = some (Node.file c r) := by
              rw [lookupEntry_removeEntry_ne _ hmn]
              exact hn
            have hcong : firstMatch hash (removeEntry es m) (hash c) ns
                = firstMatch hash es (hash c) ns :=
              firstMatch_congr (fun x hx => lookupEntry_removeEntry_ne _
                (fun he => hmns (by rw [he]; exact hx)))
            apply ih hok2 hnodup2 hmem2 hn2
            rcases hcase with hc1 | hc2
            · exact Or.inl hc1
            · by_cases hfc : hash c0 = hash c
              · exact Or.inl (hfc ▸ hin)
              · rw [firstMatch_cons_file hm, if_neg hfc] at hc2
                exact Or.inr (by rw [hcong]; exact hc2)
          · rw [if_neg hin] at hok2
            apply ih hok2 hnodup2 hmem2 hn
            rcases hcase with hc1 | hc2
            · exact Or.inl (List.mem_cons_of_mem _ hc1)
            · by_cases hfc : hash c0 = hash c
              · exact Or.inl (by rw [← hfc]; exact List.mem_cons_self _ _)
              · rw [firstMatch_cons_file hm, if_neg hfc] at hc2
                exact Or.inr hc2
      · rename_i hlk
        cases hlm : lookupEntry es m with
        | none =>
          apply ih hok hnodup2 hmem2 hn
          rcases hcase with hc1 | hc2
          · exact Or.inl hc1
          · rw [firstMatch_cons_none hlm] at hc2
            exact Or.inr hc2
        | some v =>
          cases v with
          | dir es2 =>
            apply ih hok hnodup2 hmem2 hn
            rcases hcase with hc1 | hc2
            · exact Or.inl hc1
            · rw [firstMatch_cons_dir hlm] at hc2
              exact Or.inr hc2
          | file c0 r0 => exact absurd hlm (fun hx => hlk c0 r0 hx)

/-- An unreadable file is never removed by earlier iterations, so the pass is
bound to reach it and raise: the whole folder pass aborts. -/
theorem dedupLoop_unreadable {hash : Bytes → Nat} {ns : List String} {es : Listing}
    {seen : List Nat} {n : String} {c : Bytes}
    (hmem : n ∈ ns) (hn : lookupEntry es n = some (Node.file c false)) :
    dedupFolderLoop hash ns es seen = Except.error () := by
  induction ns generalizing es seen with
  | nil => simp at hmem
  | cons m ns ih =>
    by_cases hmn : m = n
    · subst hmn
      simp [dedupFolderLoop, hn]
    · have hmem2 : n ∈ ns := by
        rcases List.mem_cons.mp hmem with h | h
        · exact absurd h.symm hmn
        · exact h
      cases hlm : lookupEntry es m with
      | none =>
        rw [show dedupFolderLoop hash (m :: ns) es seen
            = dedupFolderLoop hash ns es seen by simp [dedupFolderLoop, hlm]]
        exact ih hmem2 hn
      | some v =>
        cases v with
        | dir es2 =>
          rw [show dedupFolderLoop hash (m :: ns) es seen
              = dedupFolderLoop hash ns es seen by simp [dedupFolderLoop, hlm]]
          exact ih hmem2 hn
        | file c0 r0 =>
          cases r0 with
          | false => simp [dedupFolderLoop, hlm]
          | true =>
            have hstep : dedupFolderLoop hash (m :: ns) es seen
                = if (hash c0) ∈ seen
                  then dedupFolderLoop hash ns (removeEntry es m) seen
                  else dedupFolderLoop hash ns es (hash c0 :: seen) := by
              simp [dedupFolderLoop, hlm]
            rw [hstep]
            by_cases hin : (hash c0) ∈ seen
            · rw [if_pos hin]
              apply ih hmem2
              rw [lookupEntry_removeEntry_ne _ hmn]
              exact hn
            · rw [if_neg hin]
              exact ih hmem2 hn

/-- An unreadable file inside any configured folder aborts the whole
deduplication stage (`remove_duplicates` propagates the exception). -/
theorem remove_duplicates_unreadable {hash : Bytes → Nat} {rules : Rules}
    {d : Listing} {F : String} {exts : List String} {es : Listing}
    {n : String} {c : Bytes}
    (hmem : (F, exts) ∈ rules)
    (hF : lookupEntry d F = some (Node.dir es))
    (hn : lookupEntry es n = some (Node.file c false)) :
    remove_duplicates hash rules d = Except.error () := by
  induction rules generalizing d with
  | nil => simp at hmem
  | cons p rs ih =>
    cases p with
    | mk G xts =>
      by_cases hGF : G = F
      · subst hGF
        have habort : dedupFolder hash es = Except.error () :=
          dedupLoop_unreadable (mem_keys_of_lookupEntry hn) hn
        simp [remove_duplicates, hF, habort]
      · cases hlG : lookupEntry d G with
        | none => simp [remove_duplicates, hlG]
        | some v =>
          cases v with
          | file c0 r0 => simp [remove_duplicates, hlG]
          | dir esG =>
            cases hded : dedupFolder hash esG with
            | error e => simp [remove_duplicates, hlG, hded]
            | ok es2 =>
              have hstep : remove_duplicates hash ((G, xts) :: rs) d
                  = remove_duplicates hash rs (setEntry d G (Node.dir es2)) := by
                simp [remove_duplicates, hlG, hded]
              rw [hstep]
              have hmem2 : (F, exts) ∈ rs := by
                rcases List.mem_cons.mp hmem with h | h
                · injection h with h1 h2
                  exact absurd h1.symm hGF
                · exact h
              apply ih hmem2
              rw [lookupEntry_setEntry_ne _ _ (fun he => hGF he.symm)]
              exact hF

theorem remove_duplicates_keysNodup {hash : Bytes → Nat} {rs : Rules}
    {d d' : Listing}
    (hok : remove_duplicates hash rs d = Except.ok d')
    (hkeys : keysNodup d) : keysNodup d' := by
  induction rs generalizing d with
  | nil =>
    unfold remove_duplicates at hok
    injection hok with hok
    rw [← hok]
    exact hkeys
  | cons p rs ih =>
    cases p with
    | mk G xts =>
      unfold remove_duplicates at hok
      split at hok
      · rename_i esG hlG
        split at hok
        · rename_i es2 hded
          exact ih hok (keysNodup_setEntry _ hkeys)
        · exact absurd hok (by simp)
      · exact absurd hok (by simp)

/-- A configured folder that is an empty directory stays an empty directory
through the whole deduplication stage. -/
theorem remove_duplicates_empty_dir {hash : Bytes → Nat} {rs : Rules}
    {d d' : Listing} {F : String}
    (hok : remove_duplicates hash rs d = Except.ok d')
    (hF : lookupEntry d F = some (Node.dir [])) :
    lookupEntry d' F = some (Node.dir []) := by
  induction rs generalizing d with
  | nil =>
    unfold remove_duplicates at hok
    injection hok with hok
    rw [← hok]
    exact hF
  | cons p rs ih =>
    cases p with
    | mk G xts =>
      unfold remove_duplicates at hok
      split at hok
      · rename_i esG hlG
        split at hok
        · rename_i es2 hded
          by_cases hGF : G = F
          · subst hGF
            have hes : esG = [] := by
              rw [hF] at hlG
              injection hlG with hx
              injection hx with hy
              exact hy.symm
            subst hes
            have hes2 : es2 = [] := by
              have : dedupFolder hash [] = Except.ok ([] : Listing) := rfl
              rw [this] at hded
              injection hded with hz
              exact hz.symm
            subst hes2
            apply ih hok
            rw [lookupEntry_setEntry_self]
          · apply ih hok
            rw [lookupEntry_setEntry_ne _ _ (fun he => hGF he.symm)]
            exact hF
        · exact absurd hok (by simp)
      · exact absurd hok (by simp)

/-! ## Lemmas about the cleanup stage -/

theorem filter_filter_entries (p q : String × Node → Bool) (l : Listing) :
    (l.filter p).filter q = l.filter (fun a => p a && q a) := by
  induction l with
  | nil => rfl
  | cons x l ih =>
    cases hp : p x <;> cases hq : q x <;>
      simp [List.filter_cons, hp, hq, ih]

theorem keys_filter_subset {l : Listing} {p : String × Node → Bool} {n : String}
    (h : n ∉ l.map Prod.fst) : n ∉ (l.filter p).map Prod.fst := by
  intro hx
  rcases List.mem_map.mp hx with ⟨e, he, hfst⟩
  exact h (List.mem_map.mpr ⟨e, List.mem_of_mem_filter he, hfst⟩)

theorem lookupEntry_filter_dropped {l : Listing} {n : String} {v : Node}
    {p : String × Node → Bool}
    (hkeys : keysNodup l) (hv : lookupEntry l n = some v) (hp : p (n, v) = false) :
    lookupEntry (l.filter p) n = none := by
  induction l with
  | nil => simp [lookupEntry] at hv
  | cons e t ih =>
    have ht : keysNodup t := (List.nodup_cons.mp hkeys).2
    by_cases he : e.1 = n
    · have hev : e = (n, v) := by
        rw [lookupEntry, if_pos he] at hv
        injection hv with hv2
        cases e
        simp only at he hv2
        rw [he, hv2]
      have hnt : n ∉ t.map Prod.fst := by
        have := (List.nodup_cons.mp hkeys).1
        rw [he] at this
        exact this
      rw [List.filter_cons, hev, hp]
      simp only [Bool.false_eq_true, if_false]
      exact lookupEntry_eq_none_of_not_mem (keys_filter_subset hnt)
    · rw [lookupEntry, if_neg he] at hv
      rw [List.filter_cons]
      cases hpe : p e with
      | false =>
        simp only [Bool.false_eq_true, if_false]
        exact ih ht hv
      | true =>
        simp only [if_true]
        rw [lookupEntry, if_neg he]
        exact ih ht hv

/-- The cleanup fold is exactly a filter: it drops the entries that are empty
directories whose name is in the scanned snapshot, and keeps everything else
verbatim. -/
theorem cleanLoop_filter {ns : List String} {st : Listing}
    (hkeys : keysNodup st) (hns : ns.Nodup) :
    cleanLoop ns st
      = st.filter (fun e => !(ns.contains e.1 && isEmptyDirNode e.2)) := by
  induction ns generalizing st with
  | nil =>
    show st = st.filter (fun e => !(List.contains [] e.1 && isEmptyDirNode e.2))
    exact (List.filter_eq_self.mpr (fun e he => by rfl)).symm
  | cons m ns ih =>
    have hns2 : ns.Nodup := (List.nodup_cons.mp hns).2
    unfold cleanLoop
    cases hlm : lookupEntry st m with
    | none =>
      rw [ih hkeys hns2]
      apply List.filter_congr
      intro e he
      have hme : e.1 ≠ m := by
        intro hx
        have := lookupEntry_isSome_of_mem_keys (List.mem_map.mpr ⟨e, he, hx⟩)
        rw [hlm] at this
        simp at this
      simp [List.contains_cons, hme]
    | some v =>
      cases v with
      | file c r =>
        rw [ih hkeys hns2]
        apply List.filter_congr
        intro e he
        by_cases hme : e.1 = m
        · have hnode : e.2 = Node.file c r := by
            have hl := lookupEntry_of_mem hkeys (show (e.1, e.2) ∈ st by simpa using he)
            rw [hme, hlm] at hl
            injection hl with hl2
            exact hl2.symm
          simp [hnode, isEmptyDirNode]
        · simp [List.contains_cons, hme]
      | dir es =>
        cases es with
        | cons e0 es0 =>
          rw [ih hkeys hns2]
          apply List.filter_congr
          intro e he
          by_cases hme : e.1 = m
          · have hnode : e.2 = Node.dir (e0 :: es0) := by
              have hl := lookupEntry_of_mem hkeys (show (e.1, e.2) ∈ st by simpa using he)
              rw [hme, hlm] at hl
              injection hl with hl2
              exact hl2.symm
            simp [hnode, isEmptyDirNode]
          · simp [List.contains_cons, hme]
        | nil =>
          rw [ih (keysNodup_removeEntry _ hkeys) hns2]
          unfold removeEntry
          rw [filter_filter_entries]
          apply List.filter_congr
          intro e he
          by_cases hme : e.1 = m
          · have hnode : e.2 = Node.dir [] := by
              have hl := lookupEntry_of_mem hkeys (show (e.1, e.2) ∈ st by simpa using he)
              rw [hme, hlm] at hl
              injection hl with hl2
              exact hl2.symm
            simp [hme, hnode, isEmptyDirNode, List.contains_cons]
          · simp [List.contains_cons, hme]

/-! ## The test-file variant (`test_4NSIKfilefix.py`)

`test_4NSIKfilefix.py` duplicates the whole pipeline, resolving destination
folders against the process working directory (`Path(folder)`, `os.listdir()`,
`os.rmdir(folder)`) instead of against the download directory.  Under the
premise of claim C9 — the working directory *is* the download directory — a
relative `folder` path and `download_dir/folder` denote the same directory
entry, so both variants act on the same `Listing` state space.  The variant is
embedded separately below (suffix `T`), mirroring its own source lines.  -/

/-- Lines 33-35 of the test variant. -/
def ensureFoldersT : Rules → Listing → Listing
  | [], d => d
  | (folder, _) :: rs, d =>
    ensureFoldersT rs
      (if (lookupEntry d folder).isSome then d else d ++ [(folder, Node.dir [])])

/-- Line 47 of the test variant: `shutil.move(file_path, Path(folder)/file)`. -/
def moveFileT (st : Listing) (n : String) (c : Bytes) (r : Bool) (folder : String) :
    Except Unit Listing :=
  match lookupEntry st folder with
  | some (Node.dir es) =>
    match lookupEntry es n with
    | some (Node.dir sub) =>
      match lookupEntry sub n with
      | some _ => Except.error ()
      | none =>
        Except.ok (setEntry (removeEntry st n) folder
          (Node.dir (setEntry es n (Node.dir (setEntry sub n (Node.file c r))))))
    | _ =>
      Except.ok (setEntry (removeEntry st n) folder
        (Node.dir (setEntry es n (Node.file c r))))
  | _ => Except.error ()

/-- Lines 41-51 of the test variant. -/
def organizeLoopT (rules : Rules) :
    List String → Listing → (String → Nat) → Except Unit (Listing × (String → Nat))
  | [], st, counts => Except.ok (st, counts)
  | n :: ns, st, counts =>
    match lookupEntry st n with
    | some (Node.file c r) =>
      match classify rules n with
      | some folder =>
        match moveFileT st n c r folder with
        | Except.ok st2 => organizeLoopT rules ns st2 (bump counts folder)
        | Except.error e => Except.error e
      | none => organizeLoopT rules ns st counts
    | _ => organizeLoopT rules ns st counts

/-- Lines 31-56 of the test variant: `organize_files(folders, download_dir)`. -/
def organize_filesT (rules : Rules) (d : Listing) :
    Except Unit (Listing × (String → Nat)) :=
  organizeLoopT rules ((ensureFoldersT rules d).map Prod.fst)
    (ensureFoldersT rules d) (fun _ => 0)

/-- Lines 65-75 of the test variant. -/
def dedupFolderLoopT (hash : Bytes → Nat) :
    List String → Listing → List Nat → Except Unit Listing
  | [], es, _ => Except.ok es
  | n :: ns, es, seen =>
    match lookupEntry es n with
    | some (Node.file c r) =>
      if r then
        if (hash c) ∈ seen then dedupFolderLoopT hash ns (removeEntry es n) seen
        else dedupFolderLoopT hash ns es (hash c :: seen)
      else Except.error ()
    | _ => dedupFolderLoopT hash ns es seen

def dedupFolderT (hash : Bytes → Nat) (es : Listing) : Except Unit Listing :=
  dedupFolderLoopT hash (es.map Prod.fst) es []

/-- Lines 58-79 of the test variant: `remove_duplicates(folders)`. -/
def remove_duplicatesT (hash : Bytes → Nat) : Rules → Listing → Except Unit Listing
  | [], d => Except.ok d
  | (folder, _) :: rs, d =>
    match lookupEntry d folder with
    | some (Node.dir es) =>
      match dedupFolderT hash es with
      | Except.ok es2 => remove_duplicatesT hash rs (setEntry d folder (Node.dir es2))
      | Except.error e => Except.error e
    | _ => Except.error ()

/-- Lines 81-86 of the test variant: `clean_up_empty_folders()` over the
working directory. -/
def cleanLoopT : List String → Listing → Listing
  | [], st => st
  | n :: ns, st =>
    match lookupEntry st n with
    | some (Node.dir []) => cleanLoopT ns (removeEntry st n)
    | _ => cleanLoopT ns st

def clean_up_empty_foldersT (d : Listing) : Listing :=
  cleanLoopT (d.map Prod.fst) d

/-- Lines 100-112 of the test variant: the stage sequencing of its `main`. -/
def run_pipelineT (hash : Bytes → Nat) (rules : Rules) (d : Listing) :
    Except Unit (Listing × (String → Nat)) :=
  match organize_filesT rules d with
  | Except.error e => Except.error e
  | Except.ok (d1, counts) =>
    match remove_duplicatesT hash rules d1 with
    | Except.error e => Except.error e
    | Except.ok d2 => Except.ok (clean_up_empty_foldersT d2, counts)

/-! ### Pointwise equivalence of the two variants -/

theorem moveFileT_eq (st : Listing) (n : String) (c : Bytes) (r : Bool)
    (folder : String) : moveFileT st n c r folder = moveFile st n c r folder := rfl

theorem ensureFoldersT_eq : ∀ (rs : Rules) (d : Listing),
    ensureFoldersT rs d = ensureFolders rs d := by
  intro rs
  induction rs with
  | nil => intro d; rfl
  | cons p rs ih =>
    intro d
    cases p with
    | mk folder exts =>
      show ensureFoldersT rs _ = ensureFolders rs _
      rw [ih]

theorem organizeLoopT_eq (rules : Rules) : ∀ (ns : List String) (st : Listing)
    (counts : String → Nat),
    organizeLoopT rules ns st counts = organizeLoop rules ns st counts := by
  intro ns
  induction ns with
  | nil => intro st counts; rfl
  | cons n ns ih =>
    intro st counts
    unfold organizeLoopT organizeLoop
    split
    · rename_i c r hlk
      split
      · rename_i folder hcl
        rw [moveFileT_eq]
        split
        · rename_i st2 hmv
          exact ih st2 (bump counts folder)
        · rfl
      · exact ih st counts
    · exact ih st counts

theorem organize_filesT_eq (rules : Rules) (d : Listing) :
    organize_filesT rules d = organize_files rules d := by
  unfold organize_filesT organize_files
  rw [ensureFoldersT_eq, organizeLoopT_eq]

theorem dedupFolderLoopT_eq (hash : Bytes → Nat) : ∀ (ns : List String)
    (es : Listing) (seen : List Nat),
    dedupFolderLoopT hash ns es seen = dedupFolderLoop hash ns es seen := by
  intro ns
  induction ns with
  | nil => intro es seen; rfl
  | cons n ns ih =>
    intro es seen
    unfold dedupFolderLoopT dedupFolderLoop
    split
    · rename_i c r hlk
      split
      · split
        · exact ih (removeEntry es n) seen
        · exact ih es (hash c :: seen)
      · rfl
    · exact ih es seen

theorem dedupFolderT_eq (hash : Bytes → Nat) (es : Listing) :
    dedupFolderT hash es = dedupFolder hash es := by
  unfold dedupFolderT dedupFolder
  rw [dedupFolderLoopT_eq]

theorem remove_duplicatesT_eq (hash : Bytes → Nat) : ∀ (rs : Rules) (d : Listing),
    remove_duplicatesT hash rs d = remove_duplicates hash rs d := by
  intro rs
  induction rs with
  | nil => intro d; rfl
  | cons p rs ih =>
    intro d
    cases p with
    | mk folder exts =>
      unfold remove_duplicatesT remove_duplicates
      split
      · rename_i es hlk
        rw [dedupFolderT_eq]
        split
        · rename_i es2 hded
          exact ih (setEntry d folder (Node.dir es2))
        · rfl
      · rfl

theorem cleanLoopT_eq : ∀ (ns : List String) (st : Listing),
    cleanLoopT ns st = cleanLoop ns st := by
  intro ns
  induction ns with
  | nil => intro st; rfl
  | cons n ns ih =>
    intro st
    unfold cleanLoopT cleanLoop
    split
    · exact ih (removeEntry st n)
    · exact ih st

theorem clean_up_empty_foldersT_eq (d : Listing) :
    clean_up_empty_foldersT d = clean_up_empty_folders d := by
  unfold clean_up_empty_foldersT clean_up_empty_folders
  rw [cleanLoopT_eq]

theorem run_pipelineT_eq (hash : Bytes → Nat) (rules : Rules) (d : Listing) :
    run_pipelineT hash rules d = run_pipeline hash rules d := by
  unfold run_pipelineT run_pipeline
  rw [organize_filesT_eq]
  split
  · rfl
  · rename_i d1 counts hog
    rw [remove_duplicatesT_eq]
    split
    · rfl
    · rw [clean_up_empty_foldersT_eq]

/-! ## Counting helpers -/

/-- Filtering the key snapshot by live match is the same as filtering the
entries themselves, when keys are unique. -/
theorem liveMatch_keys_length {rules : Rules} {l : Listing} (Fq : String)
    (hkeys : keysNodup l) :
    ((l.map Prod.fst).filter (fun m => liveMatch rules l m Fq)).length
      = routedCount rules l Fq := by
  induction l with
  | nil => rfl
  | cons e t ih =>
    have ht : keysNodup t := (List.nodup_cons.mp hkeys).2
    have het : e.1 ∉ t.map Prod.fst := (List.nodup_cons.mp hkeys).1
    have hself : lookupEntry (e :: t) e.1 = some e.2 := by
      simp [lookupEntry]
    have hhead : liveMatch rules (e :: t) e.1 Fq
        = (isFileNode e.2 && (classify rules e.1 == some Fq)) := by
      unfold liveMatch
      rw [hself]
      cases e.2 with
      | file c r => rfl
      | dir es => rfl
    have htail : (t.map Prod.fst).filter (fun m => liveMatch rules (e :: t) m Fq)
        = (t.map Prod.fst).filter (fun m => liveMatch rules t m Fq) := by
      apply List.filter_congr
      intro x hx
      have hxe : e.1 ≠ x := fun he => het (by rw [he]; exact hx)
      exact liveMatch_congr (by rw [lookupEntry, if_neg hxe])
    unfold routedCount
    simp only [List.map_cons, List.filter_cons, hhead, htail]
    by_cases hb : (isFileNode e.2 && (classify rules e.1 == some Fq)) = true
    · rw [if_pos hb, if_pos hb, List.length_cons, List.length_cons, ih ht]
      rfl
    · rw [if_neg hb, if_neg hb, ih ht]
      rfl

theorem routedCount_erase_unmatched {rules : Rules} {d : Listing} {n : String}
    (Fq : String) (hcl : classify rules n = none) :
    routedCount rules (d.filter (fun e => e.1 ≠ n)) Fq = routedCount rules d Fq := by
  unfold routedCount
  rw [filter_filter_entries]
  apply congrArg List.length
  apply List.filter_congr
  intro e he
  by_cases hen : e.1 = n
  · simp [hen, hcl]
  · simp [hen]

theorem sum_map_add_counts (f g : String → Nat) (l : List String) :
    (l.map (fun x => f x + g x)).sum = (l.map f).sum + (l.map g).sum := by
  induction l with
  | nil => rfl
  | cons a l ih =>
    simp only [List.map_cons, List.sum_cons, ih]
    omega

theorem sum_ite_eq_nodup (names : List String) (F0 : String)
    (hnodup : names.Nodup) (hmem : F0 ∈ names) :
    (names.map (fun F => if F0 = F then 1 else 0)).sum = 1 := by
  induction names with
  | nil => simp at hmem
  | cons a names ih =>
    have hna : a ∉ names := (List.nodup_cons.mp hnodup).1
    have hnodup2 : names.Nodup := (List.nodup_cons.mp hnodup).2
    by_cases hF0 : F0 = a
    · subst hF0
      have hzero : (names.map (fun F => if F0 = F then 1 else 0)).sum = 0 := by
        apply List.sum_eq_zero
        intro x hx
        rcases List.mem_map.mp hx with ⟨F, hFm, hFx⟩
        have : F0 ≠ F := fun he => hna (by rw [← he] at hFm; exact hFm)
        rw [← hFx, if_neg this]
      simp [hzero]
    · have hmem2 : F0 ∈ names := by
        rcases List.mem_cons.mp hmem with h | h
        · exact absurd h hF0
        · exact h
      simp only [List.map_cons, List.sum_cons, if_neg hF0, ih hnodup2 hmem2]

/-- Summing the per-folder routed counts over the distinct configured folder
names counts every matched regular file exactly once. -/
theorem sum_routedCount (rules : Rules) (names : List String)
    (hnodup : names.Nodup)
    (hcover : ∀ n F, classify rules n = some F → F ∈ names) :
    ∀ d : Listing,
      (names.map (fun F => routedCount rules d F)).sum
        = (d.filter (fun e => isFileNode e.2 && (classify rules e.1).isSome)).length := by
  intro d
  induction d with
  | nil =>
    simp [routedCount]
  | cons e t ih =>
    have hstep : ∀ F, routedCount rules (e :: t) F
        = (if (isFileNode e.2 && (classify rules e.1 == some F)) = true then 1 else 0)
          + routedCount rules t F := by
      intro F
      unfold routedCount
      rw [List.filter_cons]
      by_cases hb : (isFileNode e.2 && (classify rules e.1 == some F)) = true
      · rw [if_pos hb, if_pos hb, List.length_cons]
        omega
      · rw [if_neg hb, if_neg hb]
        omega
    have hmapeq : names.map (fun F => routedCount rules (e :: t) F)
        = names.map (fun F =>
            (if (isFileNode e.2 && (classify rules e.1 == some F)) = true then 1 else 0)
            + routedCount rules t F) := by
      apply List.map_congr_left
      intro F hF
      exact hstep F
    rw [hmapeq, sum_map_add_counts, ih, List.filter_cons]
    cases hcl : classify rules e.1 with
    | none =>
      have hzero : ((names.map (fun F =>
          if (isFileNode e.2 && ((none : Option String) == some F)) = true
          then 1 else 0)).sum) = 0 := by
        apply List.sum_eq_zero
        intro x hx
        rcases List.mem_map.mp hx with ⟨F, hFm, hFx⟩
        rw [← hFx, if_neg (by simp)]
      rw [hzero]
      rw [if_neg (by simp)]
      simp
    | some F0 =>
      by_cases hfile : isFileNode e.2 = true
      · have hone : ((names.map (fun F =>
            if (isFileNode e.2 && ((some F0 : Option String) == some F)) = true
            then 1 else 0)).sum) = 1 := by
          have hmemF0 : F0 ∈ names := hcover e.1 F0 hcl
          have hmapeq2 : (names.map (fun F =>
              if (isFileNode e.2 && ((some F0 : Option String) == some F)) = true
              then 1 else 0))
              = names.map (fun F => if F0 = F then 1 else 0) := by
            apply List.map_congr_left
            intro F hF
            by_cases hFF0 : F0 = F
            · rw [if_pos hFF0, if_pos (by simp [hfile, hFF0])]
            · rw [if_neg hFF0, if_neg (by simp [hfile]; exact hFF0)]
          rw [hmapeq2]
          exact sum_ite_eq_nodup names F0 hnodup hmemF0
        rw [hone]
        rw [if_pos (by simp [hfile]), List.length_cons]
        omega
      · have hzero : ((names.map (fun F =>
            if (isFileNode e.2 && ((some F0 : Option String) == some F)) = true
            then 1 else 0)).sum) = 0 := by
          apply List.sum_eq_zero
          intro x hx
          rcases List.mem_map.mp hx with ⟨F, hFm, hFx⟩
          rw [← hFx, if_neg (by simp [hfile])]
        rw [hzero]
        rw [if_neg (by simp [hfile])]
        simp

/-! ## The claims -/

/-- Claim C1, counterexample: the claim as stated fails when the destination
folder already contains a *directory* named like the matched file.  On this
snapshot — `a.jpg` at the top level and `img/a.jpg` an existing directory —
the organize stage completes successfully and increments the counter, but
`shutil.move` moves the file *inside* the occupying directory: the final
state has `img/a.jpg` still a directory, with the file nested one level
deeper at `img/a.jpg/a.jpg`, so the file does not exist in the destination
folder itself. -/
theorem C1_counterexample :
    organize_files [("img", [".jpg"])]
        [("a.jpg", Node.file [1] true), ("img", Node.dir [("a.jpg", Node.dir [])])]
      = Except.ok ([("img", Node.dir
          [("a.jpg", Node.dir [("a.jpg", Node.file [1] true)])])],
          bump (fun _ => 0) "img") ∧
    ¬ (∃ es, lookupEntry
        [("img", Node.dir [("a.jpg", Node.dir [("a.jpg", Node.file [1] true)])])] "img"
        = some (Node.dir es) ∧
      lookupEntry es "a.jpg" = some (Node.file [1] true)) := by
  refine ⟨rfl, ?_⟩
  rintro ⟨es, h1, h2⟩
  have hx : some (Node.dir [("a.jpg", Node.dir [("a.jpg", Node.file [1] true)])])
      = some (Node.dir es) := h1
  injection hx with hy
  injection hy with hz
  rw [← hz] at h2
  have hw : some (Node.dir [("a.jpg", Node.file [1] true)])
      = some (Node.file [1] true) := h2
  injection hw with hv
  exact Node.noConfusion hv

/-- Claim C1, as amended: for every source-directory snapshot and ordered rule
set, after a completed organize stage each regular file whose name ends with a
configured suffix — *provided the destination folder's slot for that name is
not an already-existing directory* (the `hdest` hypothesis; otherwise
`shutil.move` nests the file one level deeper inside that directory while
still counting it, as the counterexample shows) — exists in exactly the
destination folder chosen by first-matching-folder order (`classify`): it is
gone from the top level, present in that folder with its content intact,
every other folder's slot for that name is unchanged, and FolderCounts of the
destination folder counts exactly one per such file. -/
theorem C1_organize_routes_first_match
    (rules : Rules) (d st : Listing) (counts : String → Nat)
    (hkeys : keysNodup d)
    (hok : organize_files rules d = Except.ok (st, counts))
    (n : String) (c : Bytes) (r : Bool)
    (hn : lookupEntry d n = some (Node.file c r))
    (F : String) (hF : classify rules n = some F)
    (hdest : ∀ es sub, lookupEntry d F = some (Node.dir es) →
      lookupEntry es n ≠ some (Node.dir sub)) :
    lookupEntry st n = none ∧
    (∃ es, lookupEntry st F = some (Node.dir es) ∧
      lookupEntry es n = some (Node.file c r)) ∧
    (∀ F' es0, F' ≠ F → lookupEntry d F' = some (Node.dir es0) →
      ∃ es1, lookupEntry st F' = some (Node.dir es1) ∧
        lookupEntry es1 n = lookupEntry es0 n) ∧
    counts F = routedCount rules d F := by
  unfold organize_files at hok
  have hkeys1 : keysNodup (ensureFolders rules d) := ensureFolders_keysNodup hkeys
  have hn1 : lookupEntry (ensureFolders rules d) n = some (Node.file c r) :=
    ensureFolders_preserves hn
  have hmem : n ∈ (ensureFolders rules d).map Prod.fst := mem_keys_of_lookupEntry hn1
  have hdest1 : ∀ es sub, lookupEntry (ensureFolders rules d) F = some (Node.dir es) →
      lookupEntry es n ≠ some (Node.dir sub) := by
    intro es sub hF1 hlk
    rcases ensureFolders_lookup_inv hF1 with h | ⟨hnone, hv⟩
    · exact hdest es sub h hlk
    · have hes : es = [] := by injection hv
      rw [hes] at hlk
      exact Option.noConfusion hlk
  rcases organizeLoop_matched hok hkeys1 hmem hn1 hF hdest1 with ⟨h1, es', h2, h3⟩
  refine ⟨h1, ⟨es', h2, h3⟩, ?_, ?_⟩
  · intro F' es0 hne hF'0
    exact organizeLoop_other_folder hok hF hne (ensureFolders_preserves hF'0)
  · have hc := organizeLoop_counts hok hkeys1 F
    rw [hc, liveMatch_keys_length F hkeys1, routedCount_ensureFolders]
    omega

/-- Claim C5: running the organize stage again immediately after a successful
pass, with no new files, performs no moves — the second run succeeds and
returns a FolderCounts that is zero for every folder. -/
theorem C5_second_organize_run_moves_nothing
    (rules : Rules) (d st : Listing) (counts : String → Nat)
    (hok : organize_files rules d = Except.ok (st, counts)) :
    ∃ st2 counts2, organize_files rules st = Except.ok (st2, counts2) ∧
      ∀ F, counts2 F = 0 := by
  unfold organize_files at hok
  have hpost := organizeLoop_top_unmatched hok
    (fun n c r hn _ => mem_keys_of_lookupEntry hn)
  have hall : ∀ n c r,
      lookupEntry (ensureFolders rules st) n = some (Node.file c r) →
      classify rules n = none :=
    fun n c r hn => hpost n c r (ensureFolders_file_iff.mp hn)
  exact ⟨ensureFolders rules st, (fun _ => 0),
    organizeLoop_skip_all _ _ _ hall, fun F => rfl⟩

/-- Claim C6: a regular file whose name matches no configured suffix is left
at the top level untouched (same name, same content) and contributes nothing
to FolderCounts: the counts are the same as if the file were not there. -/
theorem C6_unmatched_files_left_in_place
    (rules : Rules) (d st : Listing) (counts : String → Nat)
    (hkeys : keysNodup d)
    (hok : organize_files rules d = Except.ok (st, counts))
    (n : String) (c : Bytes) (r : Bool)
    (hn : lookupEntry d n = some (Node.file c r))
    (hcl : classify rules n = none) :
    lookupEntry st n = some (Node.file c r) ∧
    ∀ F, counts F = routedCount rules (d.filter (fun e => e.1 ≠ n)) F := by
  unfold organize_files at hok
  have hkeys1 : keysNodup (ensureFolders rules d) := ensureFolders_keysNodup hkeys
  constructor
  · exact organizeLoop_unmatched hok (ensureFolders_preserves hn) hcl
  · intro F
    have hc := organizeLoop_counts hok hkeys1 F
    rw [hc, liveMatch_keys_length F hkeys1, routedCount_ensureFolders,
      routedCount_erase_unmatched F hcl]
    omega

/-- Claim C10: the inner rule loop stops at the first matching folder, so each
snapshot file is counted toward (and moved into) at most one folder: for every
folder the returned count is exactly the number of files the classifier routes
there, and summing the counts over the configured folders equals the total
number of matched regular files — the total number of moves of the stage. -/
theorem C10_each_file_counted_once
    (rules : Rules) (d st : Listing) (counts : String → Nat)
    (hkeys : keysNodup d) (hrules : (rules.map Prod.fst).Nodup)
    (hok : organize_files rules d = Except.ok (st, counts)) :
    (∀ F, counts F = routedCount rules d F) ∧
    ((rules.map Prod.fst).map counts).sum
      = (d.filter (fun e => isFileNode e.2 && (classify rules e.1).isSome)).length := by
  unfold organize_files at hok
  have hkeys1 : keysNodup (ensureFolders rules d) := ensureFolders_keysNodup hkeys
  have hcounts : ∀ F, counts F = routedCount rules d F := by
    intro F
    have hc := organizeLoop_counts hok hkeys1 F
    rw [hc, liveMatch_keys_length F hkeys1, routedCount_ensureFolders]
    omega
  refine ⟨hcounts, ?_⟩
  have hmc : (rules.map Prod.fst).map counts
      = (rules.map Prod.fst).map (fun F => routedCount rules d F) :=
    List.map_congr_left (fun F _ => hcounts F)
  rw [hmc]
  exact sum_routedCount rules (rules.map Prod.fst) hrules
    (fun n F h => classify_mem_keys h) d

/-- Claim C2: after a completed deduplication pass over a folder, no two
remaining regular files have equal content digests; a file survives exactly
when it is the first entry in the folder's listing order bearing its digest
(`firstMatch` over the listing snapshot), so all later-listed files of a
digest group are deleted; and nothing new appears. -/
theorem C2_dedup_keeps_first_listed
    (hash : Bytes → Nat) (es es' : Listing)
    (hkeys : keysNodup es)
    (hok : dedupFolder hash es = Except.ok es') :
    (∀ n1 c1 r1 n2 c2 r2, (n1, Node.file c1 r1) ∈ es' → (n2, Node.file c2 r2) ∈ es' →
      n1 ≠ n2 → hash c1 ≠ hash c2) ∧
    (∀ n c r, lookupEntry es n = some (Node.file c r) →
      (lookupEntry es' n = some (Node.file c r) ↔
        firstMatch hash es (hash c) (es.map Prod.fst) = some n)) ∧
    (∀ x, x ∈ es' → x ∈ es) := by
  unfold dedupFolder at hok
  have hkeys' := dedupLoop_keysNodup hok hkeys
  have hsub := dedupLoop_subset hok
  have hiff : ∀ n c r, lookupEntry es n = some (Node.file c r) →
      (lookupEntry es' n = some (Node.file c r) ↔
        firstMatch hash es (hash c) (es.map Prod.fst) = some n) := by
    intro n c r hn
    constructor
    · intro hsurv
      by_contra hnot
      have hdel := dedupLoop_delete hok hkeys (mem_keys_of_lookupEntry hn) hn
        (Or.inr hnot)
      rw [hdel] at hsurv
      exact Option.noConfusion hsurv
    · intro hfirst
      exact dedupLoop_keep hok hkeys (mem_keys_of_lookupEntry hn) hn (by simp) hfirst
  refine ⟨?_, hiff, hsub⟩
  intro n1 c1 r1 n2 c2 r2 h1 h2 hne heq
  have hl1' : lookupEntry es' n1 = some (Node.file c1 r1) := lookupEntry_of_mem hkeys' h1
  have hl2' : lookupEntry es' n2 = some (Node.file c2 r2) := lookupEntry_of_mem hkeys' h2
  have hl1 : lookupEntry es n1 = some (Node.file c1 r1) :=
    lookupEntry_of_mem hkeys (hsub _ h1)
  have hl2 : lookupEntry es n2 = some (Node.file c2 r2) :=
    lookupEntry_of_mem hkeys (hsub _ h2)
  have hf1 := (hiff n1 c1 r1 hl1).mp hl1'
  have hf2 := (hiff n2 c2 r2 hl2).mp hl2'
  rw [heq, hf2] at hf1
  injection hf1 with hx
  exact hne hx.symm

/-- Claim C3 counterexample: the claim says a file unreadable due to a
permission error during hashing is skipped and the pass continues without
aborting the stage.  On this concrete folder — one readable file and one
unreadable one — the code raises the uncaught `PermissionError` instead, and
the whole deduplication stage aborts with an error. -/
theorem C3_counterexample :
    remove_duplicates (fun c => c.sum) [("docs", [".pdf"])]
      [("docs", Node.dir
        [("a.pdf", Node.file [1] true), ("b.pdf", Node.file [2] false)])]
      = Except.error () := rfl

/-- Claim C3 as amended: per-item I/O failures are NOT isolated — no exception
is caught anywhere in the source, so a file unreadable during hashing makes
the open call raise and the exception propagates out of the loop: whenever any
configured folder contains an unreadable regular file, the whole
`remove_duplicates` stage (and hence the run) aborts with the error.  (The
unreadable file itself is never deleted, but only because the crash precedes
any action on it.) -/
theorem C3_amended_unreadable_aborts_stage
    (hash : Bytes → Nat) (rules : Rules) (d : Listing)
    (F : String) (exts : List String) (es : Listing) (n : String) (c : Bytes)
    (hmem : (F, exts) ∈ rules)
    (hF : lookupEntry d F = some (Node.dir es))
    (hn : lookupEntry es n = some (Node.file c false)) :
    remove_duplicates hash rules d = Except.error () :=
  remove_duplicates_unreadable hmem hF hn

/-- Claim C3 amended, witness: a concrete folder with an unreadable file whose
deduplication stage aborts. -/
theorem C3_amended_witness :
    lookupEntry [("music", Node.dir [("x.mp3", Node.file [5] false)])] "music"
      = some (Node.dir [("x.mp3", Node.file [5] false)]) ∧
    lookupEntry [("x.mp3", Node.file [5] false)] "x.mp3"
      = some (Node.file [5] false) ∧
    remove_duplicates (fun c => c.sum) [("music", [".mp3"])]
      [("music", Node.dir [("x.mp3", Node.file [5] false)])] = Except.error () :=
  ⟨rfl, rfl, C3_amended_unreadable_aborts_stage (fun c => c.sum) _ _ "music" [".mp3"]
    _ "x.mp3" [5] (List.mem_cons_self _ _) rfl rfl⟩

/-- Claim C4 counterexample: the claim says a run with an empty `folders`
mapping fails with ConfigError before any filesystem mutation.  On this
concrete state the pipeline instead completes successfully — and still
mutates the filesystem: cleanup removes the pre-existing empty directory
`sub`, leaving an empty listing. -/
theorem C4_counterexample :
    run_pipeline (fun c => c.sum) [] [("sub", Node.dir [])]
      = Except.ok ([], fun _ => 0) := rfl

/-- Claim C4 as amended: the code performs no configuration validation and has
no ConfigError.  With `folders` empty the run does not fail at all: organize
moves nothing and returns all-zero counts, deduplication does nothing, and
cleanup still runs — removing every empty top-level directory, a filesystem
mutation.  (A missing `folders`/`download_dir` key raises KeyError in `main`
before any mutation, and a non-existent `download_dir` is created as a side
effect of folder creation rather than rejected.) -/
theorem C4_amended_no_validation (hash : Bytes → Nat) (d : Listing) :
    run_pipeline hash [] d = Except.ok (clean_up_empty_folders d, fun _ => 0) := by
  have h1 : organize_files [] d = Except.ok (d, fun _ => 0) :=
    organizeLoop_skip_all (d.map Prod.fst) d (fun _ => 0) (fun n c r _ => rfl)
  have h2 : remove_duplicates hash [] d = Except.ok d := rfl
  unfold run_pipeline
  rw [h1]
  simp only [h2]

/-- Claim C7: cleanup removes exactly the immediate subdirectories of the
scanned directory that have zero entries at scan time; every entry that is a
file or a non-empty directory is kept verbatim — in particular a kept
directory's contents (including nested empty directories) are untouched,
which is the single-level / no-re-scan behaviour. -/
theorem C7_cleanup_removes_exactly_empty (d : Listing) (hkeys : keysNodup d) :
    clean_up_empty_folders d = d.filter (fun e => !(isEmptyDirNode e.2)) ∧
    (∀ n es, (n, Node.dir es) ∈ d → es ≠ [] →
      (n, Node.dir es) ∈ clean_up_empty_folders d) ∧
    (∀ x, x ∈ clean_up_empty_folders d → x ∈ d ∧ isEmptyDirNode x.2 = false) := by
  have heq : clean_up_empty_folders d = d.filter (fun e => !(isEmptyDirNode e.2)) := by
    unfold clean_up_empty_folders
    rw [cleanLoop_filter hkeys hkeys]
    apply List.filter_congr
    intro e he
    have hm : e.1 ∈ d.map Prod.fst := List.mem_map.mpr ⟨e, he, rfl⟩
    have hc : (d.map Prod.fst).contains e.1 = true := List.elem_eq_true_of_mem hm
    rw [hc]
    simp
  refine ⟨heq, ?_, ?_⟩
  · intro n es hmem hne
    rw [heq]
    apply List.mem_filter.mpr
    refine ⟨hmem, ?_⟩
    cases es with
    | nil => exact absurd rfl hne
    | cons a l => rfl
  · intro x hx
    rw [heq] at hx
    rcases List.mem_filter.mp hx with ⟨h1, h2⟩
    refine ⟨h1, ?_⟩
    cases hie : isEmptyDirNode x.2 with
    | false => rfl
    | true =>
      rw [hie] at h2
      simp at h2

/-- Claim C8: a configured folder that did not pre-exist, into which the
classifier routes no file of the snapshot, does not exist after a full
pipeline run: the organize stage creates it empty, nothing enters it, and the
cleanup stage removes it. -/
theorem C8_unused_created_folder_removed
    (hash : Bytes → Nat) (rules : Rules) (d st : Listing) (counts : String → Nat)
    (hkeys : keysNodup d)
    (hok : run_pipeline hash rules d = Except.ok (st, counts))
    (F : String) (hFmem : F ∈ rules.map Prod.fst)
    (hFnone : lookupEntry d F = none)
    (hnoroute : ∀ n c r, lookupEntry d n = some (Node.file c r) →
      classify rules n ≠ some F) :
    lookupEntry st F = none := by
  unfold run_pipeline at hok
  split at hok
  · exact absurd hok (by simp)
  · rename_i d1 counts1 hog
    split at hok
    · exact absurd hok (by simp)
    · rename_i d2 hrd
      have hst : st = clean_up_empty_folders d2 := by
        injection hok with hx
        injection hx with hy hz
        exact hy.symm
      unfold organize_files at hog
      have hkeys0 : keysNodup (ensureFolders rules d) := ensureFolders_keysNodup hkeys
      have hF0 : lookupEntry (ensureFolders rules d) F = some (Node.dir []) :=
        ensureFolders_dir_of_none hFnone hFmem
      have hF1 : lookupEntry d1 F = some (Node.dir []) := by
        apply organizeLoop_folder_frame hog hF0
        intro m c r hm hlk
        exact hnoroute m c r (ensureFolders_file_iff.mp hlk)
      have hkeys1 : keysNodup d1 := organizeLoop_keysNodup hog hkeys0
      have hF2 : lookupEntry d2 F = some (Node.dir []) :=
        remove_duplicates_empty_dir hrd hF1
      have hkeys2 : keysNodup d2 := remove_duplicates_keysNodup hrd hkeys1
      rw [hst]
      unfold clean_up_empty_folders
      rw [cleanLoop_filter hkeys2 hkeys2]
      apply lookupEntry_filter_dropped hkeys2 hF2
      have hm : F ∈ d2.map Prod.fst := mem_keys_of_lookupEntry hF2
      have hc : (d2.map Prod.fst).contains F = true := List.elem_eq_true_of_mem hm
      show (!((d2.map Prod.fst).contains F && isEmptyDirNode (Node.dir []))) = false
      rw [hc]
      rfl

/-- Claim C9: under the premise that the process working directory equals the
download directory — which identifies the state spaces of the two variants —
the pipeline of `456FileFix.py` (folders resolved against the download
directory) and the duplicated pipeline of `test_4NSIKfilefix.py` (folders
resolved against the working directory) are extensionally equal, stage by
stage and end to end: same FolderCounts, same final directory structure and
file contents, same error behaviour. -/
theorem C9_variants_equivalent (hash : Bytes → Nat) (rules : Rules) (d : Listing) :
    organize_filesT rules d = organize_files rules d ∧
    remove_duplicatesT hash rules d = remove_duplicates hash rules d ∧
    clean_up_empty_foldersT d = clean_up_empty_folders d ∧
    run_pipelineT hash rules d = run_pipeline hash rules d :=
  ⟨organize_filesT_eq rules d, remove_duplicatesT_eq hash rules d,
    clean_up_empty_foldersT_eq d, run_pipelineT_eq hash rules d⟩

/-! ## Witnesses: the theorems applied at concrete inputs -/

/-- Claim C1, witness: a concrete two-rule run in which `a.jpg` is routed to
the first matching folder. -/
theorem C1_witness :
    keysNodup [("a.jpg", Node.file [1] true), ("c.txt", Node.file [3] true)] ∧
    (lookupEntry [("c.txt", Node.file [3] true),
        ("img", Node.dir [("a.jpg", Node.file [1] true)]),
        ("doc", Node.dir [])] "a.jpg" = none ∧
      (∃ es, lookupEntry [("c.txt", Node.file [3] true),
          ("img", Node.dir [("a.jpg", Node.file [1] true)]),
          ("doc", Node.dir [])] "img" = some (Node.dir es) ∧
        lookupEntry es "a.jpg" = some (Node.file [1] true)) ∧
      (∀ F' es0, F' ≠ "img" →
        lookupEntry [("a.jpg", Node.file [1] true), ("c.txt", Node.file [3] true)] F'
          = some (Node.dir es0) →
        ∃ es1, lookupEntry [("c.txt", Node.file [3] true),
            ("img", Node.dir [("a.jpg", Node.file [1] true)]),
            ("doc", Node.dir [])] F' = some (Node.dir es1) ∧
          lookupEntry es1 "a.jpg" = lookupEntry es0 "a.jpg") ∧
      bump (fun _ => 0) "img" "img"
        = routedCount [("img", [".jpg"]), ("doc", [".pdf"])]
            [("a.jpg", Node.file [1] true), ("c.txt", Node.file [3] true)] "img") :=
  ⟨by decide,
    C1_organize_routes_first_match
      [("img", [".jpg"]), ("doc", [".pdf"])]
      [("a.jpg", Node.file [1] true), ("c.txt", Node.file [3] true)]
      [("c.txt", Node.file [3] true),
        ("img", Node.dir [("a.jpg", Node.file [1] true)]),
        ("doc", Node.dir [])]
      (bump (fun _ => 0) "img")
      (by decide) rfl "a.jpg" [1] true rfl "img" rfl
      (fun es sub h => Option.noConfusion h)⟩

/-- Claim C2, witness: with the digest being the byte sum, `c` duplicates `a`
and is removed while first-listed `a` and `b` survive. -/
theorem C2_witness :
    keysNodup [("a", Node.file [1] true), ("b", Node.file [2] true),
      ("c", Node.file [1] true)] ∧
    ((∀ n1 c1 r1 n2 c2 r2,
        (n1, Node.file c1 r1) ∈ [("a", Node.file [1] true), ("b", Node.file [2] true)] →
        (n2, Node.file c2 r2) ∈ [("a", Node.file [1] true), ("b", Node.file [2] true)] →
        n1 ≠ n2 → (fun c => c.sum) c1 ≠ (fun c => c.sum) c2) ∧
      (∀ n c r, lookupEntry [("a", Node.file [1] true), ("b", Node.file [2] true),
          ("c", Node.file [1] true)] n = some (Node.file c r) →
        (lookupEntry [("a", Node.file [1] true), ("b", Node.file [2] true)] n
            = some (Node.file c r) ↔
          firstMatch (fun c => c.sum)
            [("a", Node.file [1] true), ("b", Node.file [2] true), ("c", Node.file [1] true)]
            ((fun c => c.sum) c) ["a", "b", "c"] = some n)) ∧
      (∀ x, x ∈ [("a", Node.file [1] true), ("b", Node.file [2] true)] →
        x ∈ [("a", Node.file [1] true), ("b", Node.file [2] true),
          ("c", Node.file [1] true)])) :=
  ⟨by decide,
    C2_dedup_keeps_first_listed (fun c => c.sum)
      [("a", Node.file [1] true), ("b", Node.file [2] true), ("c", Node.file [1] true)]
      [("a", Node.file [1] true), ("b", Node.file [2] true)]
      (by decide) rfl⟩

/-- Claim C5, witness: a successful first pass on a one-file directory; the
theorem yields a second pass that moves nothing. -/
theorem C5_witness :
    organize_files [("img", [".jpg"])] [("a.jpg", Node.file [1] true)]
      = Except.ok ([("img", Node.dir [("a.jpg", Node.file [1] true)])],
          bump (fun _ => 0) "img") ∧
    (∃ st2 counts2,
      organize_files [("img", [".jpg"])]
          [("img", Node.dir [("a.jpg", Node.file [1] true)])]
        = Except.ok (st2, counts2) ∧ ∀ F, counts2 F = 0) :=
  ⟨rfl,
    C5_second_organize_run_moves_nothing [("img", [".jpg"])]
      [("a.jpg", Node.file [1] true)]
      [("img", Node.dir [("a.jpg", Node.file [1] true)])]
      (bump (fun _ => 0) "img") rfl⟩

/-- Claim C6, witness: `c.txt` matches no rule, stays in place, and the counts
ignore it. -/
theorem C6_witness :
    keysNodup [("c.txt", Node.file [3] true)] ∧
    (lookupEntry [("c.txt", Node.file [3] true), ("img", Node.dir [])] "c.txt"
        = some (Node.file [3] true) ∧
      ∀ F, (fun (_ : String) => 0) F
        = routedCount [("img", [".jpg"])]
            (([("c.txt", Node.file [3] true)] : Listing).filter
              (fun e => e.1 ≠ "c.txt")) F) :=
  ⟨by decide,
    C6_unmatched_files_left_in_place [("img", [".jpg"])]
      [("c.txt", Node.file [3] true)]
      [("c.txt", Node.file [3] true), ("img", Node.dir [])]
      (fun _ => 0) (by decide) rfl "c.txt" [3] true rfl rfl⟩

/-- Claim C7, witness: the empty directory `x` is removed; the non-empty
directory `y` (whose only entry is itself an empty directory) and the file
`f` are kept verbatim. -/
theorem C7_witness :
    keysNodup [("x", Node.dir []), ("y", Node.dir [("z", Node.dir [])]),
      ("f", Node.file [1] true)] ∧
    (clean_up_empty_folders [("x", Node.dir []), ("y", Node.dir [("z", Node.dir [])]),
        ("f", Node.file [1] true)]
      = ([("x", Node.dir []), ("y", Node.dir [("z", Node.dir [])]),
          ("f", Node.file [1] true)] : Listing).filter
          (fun e => !(isEmptyDirNode e.2)) ∧
      (∀ n es, (n, Node.dir es) ∈ ([("x", Node.dir []),
          ("y", Node.dir [("z", Node.dir [])]),
          ("f", Node.file [1] true)] : Listing) → es ≠ [] →
        (n, Node.dir es) ∈ clean_up_empty_folders [("x", Node.dir []),
          ("y", Node.dir [("z", Node.dir [])]), ("f", Node.file [1] true)]) ∧
      (∀ x, x ∈ clean_up_empty_folders [("x", Node.dir []),
          ("y", Node.dir [("z", Node.dir [])]), ("f", Node.file [1] true)] →
        x ∈ ([("x", Node.dir []), ("y", Node.dir [("z", Node.dir [])]),
          ("f", Node.file [1] true)] : Listing) ∧ isEmptyDirNode x.2 = false)) :=
  ⟨by decide,
    C7_cleanup_removes_exactly_empty
      [("x", Node.dir []), ("y", Node.dir [("z", Node.dir [])]),
        ("f", Node.file [1] true)] (by decide)⟩

/-- Claim C8, witness: the configured folder `img` receives nothing from the
single unmatched file and is gone after the full run. -/
theorem C8_witness :
    keysNodup [("c.txt", Node.file [3] true)] ∧
    run_pipeline (fun c => c.sum) [("img", [".jpg"])] [("c.txt", Node.file [3] true)]
      = Except.ok ([("c.txt", Node.file [3] true)], fun _ => 0) ∧
    lookupEntry [("c.txt", Node.file [3] true)] "img" = none :=
  ⟨by decide, rfl,
    C8_unused_created_folder_removed (fun c => c.sum) [("img", [".jpg"])]
      [("c.txt", Node.file [3] true)] [("c.txt", Node.file [3] true)]
      (fun _ => 0) (by decide) rfl "img" (by decide) rfl
      (by
        intro n c r h hcl
        by_cases he : ("c.txt" : String) = n
        · rw [← he] at hcl
          exact absurd hcl (by decide)
        · rw [lookupEntry, if_neg he] at h
          exact Option.noConfusion h)⟩

/-- Claim C10, witness: two matched files and one unmatched file; the counts
are one per folder and their sum is the total number of moves, two. -/
theorem C10_witness :
    keysNodup [("a.jpg", Node.file [1] true), ("b.pdf", Node.file [2] true),
      ("c.txt", Node.file [3] true)] ∧
    ((["img", "doc"].map (bump (bump (fun _ => 0) "img") "doc")).sum
      = (([("a.jpg", Node.file [1] true), ("b.pdf", Node.file [2] true),
          ("c.txt", Node.file [3] true)] : Listing).filter
          (fun e => isFileNode e.2 &&
            (classify [("img", [".jpg"]), ("doc", [".pdf"])] e.1).isSome)).length) :=
  ⟨by decide,
    (C10_each_file_counted_once
      [("img", [".jpg"]), ("doc", [".pdf"])]
      [("a.jpg", Node.file [1] true), ("b.pdf", Node.file [2] true),
        ("c.txt", Node.file [3] true)]
      [("c.txt", Node.file [3] true),
        ("img", Node.dir [("a.jpg", Node.file [1] true)]),
        ("doc", Node.dir [("b.pdf", Node.file [2] true)])]
      (bump (bump (fun _ => 0) "img") "doc")
      (by decide) (by decide) rfl).2⟩
